import Mathlib

/-!
# Verification of the vscode-diff core data model

Shallow embedding of the range / edit / mapping layer of the `vscode-diff`
library (extracted from VS Code), together with theorems checking the
natural-language specification against the code.

Conventions of the embedding:
* JavaScript numbers that hold array offsets, line numbers and columns are
  modelled as `Int` (they are produced by additions and subtractions that can
  in principle go negative, which several claims are about).
* Strings are modelled as `List Char`; `String.prototype.substring` is
  modelled faithfully, including its clamping and argument-swapping behavior.
* A constructor that throws `BugIndicatingError` on bad input is modelled as a
  function returning `Option` (`none` = throws).  Call sites where the throw
  is provably unreachable use the plain structure constructor.
-/

namespace VsDiff

/-! ## JavaScript string primitives -/

/-- `String.prototype.substring(a, b)`: both indices are clamped to
`[0, length]` and swapped when out of order. -/
def substringJS (s : List Char) (a b : Int) : List Char :=
  let i : Nat := (min (max a 0) (s.length : Int)).toNat
  let j : Nat := (min (max b 0) (s.length : Int)).toNat
  (s.take (max i j)).drop (min i j)

/-- `String.prototype.substring(a)` — one-argument form: up to the end. -/
def substringFromJS (s : List Char) (a : Int) : List Char :=
  substringJS s a (s.length : Int)

/-- Modelled from the spec: the source imports `commonPrefixLength` from
`vs/base/common/strings.ts`, which is not part of this repository snapshot.
The spec calls it a "longest-common-prefix scan": the number of leading
positions at which the two strings agree. -/
def commonPrefixLength : List Char → List Char → Nat
  | a :: as, b :: bs => if a = b then commonPrefixLength as bs + 1 else 0
  | _, _ => 0

/-- Modelled from the spec: the source imports `commonSuffixLength` from
`vs/base/common/strings.ts`, which is not part of this repository snapshot.
The spec calls it a "longest-common-suffix scan": the number of trailing
positions at which the two strings agree. -/
def commonSuffixLength (a b : List Char) : Nat :=
  commonPrefixLength a.reverse b.reverse

/-! ## Position (`position.ts`) -/

/-- `Position`: a 1-based (line, column) pair. -/
structure Position where
  lineNumber : Int
  column : Int
deriving DecidableEq, Repr

namespace Position

/-- `Position.isBefore`: strict position order, line first, then column. -/
def isBefore (a b : Position) : Bool :=
  if a.lineNumber < b.lineNumber then true
  else if b.lineNumber < a.lineNumber then false
  else a.column < b.column

/-- `Position.isBeforeOrEqual`: non-strict position order. -/
def isBeforeOrEqual (a b : Position) : Bool :=
  if a.lineNumber < b.lineNumber then true
  else if b.lineNumber < a.lineNumber then false
  else a.column ≤ b.column

end Position

/-! ## Range (`range.ts`) -/

/-- `Range`: a (startLineNumber, startColumn, endLineNumber, endColumn)
rectangle.  The bare structure carries no invariant; the constructor that
normalizes the endpoint order is `Range.make`. -/
structure Range where
  startLineNumber : Int
  startColumn : Int
  endLineNumber : Int
  endColumn : Int
deriving DecidableEq, Repr

namespace Range

/-- The `Range` constructor: if the given start position is after the given
end position the two endpoints are swapped, otherwise they are kept. -/
def make (startLineNumber startColumn endLineNumber endColumn : Int) : Range :=
  if startLineNumber > endLineNumber ∨
      (startLineNumber = endLineNumber ∧ startColumn > endColumn) then
    ⟨endLineNumber, endColumn, startLineNumber, startColumn⟩
  else
    ⟨startLineNumber, startColumn, endLineNumber, endColumn⟩

/-- `getStartPosition`. -/
def getStartPosition (r : Range) : Position :=
  ⟨r.startLineNumber, r.startColumn⟩

/-- `getEndPosition`. -/
def getEndPosition (r : Range) : Position :=
  ⟨r.endLineNumber, r.endColumn⟩

/-- `plusRange`: "a reunion of the two ranges", built from the earlier start
and the later end and passed through the normalizing constructor. -/
def plusRange (a b : Range) : Range :=
  let startLineNumber :=
    if b.startLineNumber < a.startLineNumber then b.startLineNumber
    else if b.startLineNumber = a.startLineNumber then b.startLineNumber
    else a.startLineNumber
  let startColumn :=
    if b.startLineNumber < a.startLineNumber then b.startColumn
    else if b.startLineNumber = a.startLineNumber then min b.startColumn a.startColumn
    else a.startColumn
  let endLineNumber :=
    if b.endLineNumber > a.endLineNumber then b.endLineNumber
    else if b.endLineNumber = a.endLineNumber then b.endLineNumber
    else a.endLineNumber
  let endColumn :=
    if b.endLineNumber > a.endLineNumber then b.endColumn
    else if b.endLineNumber = a.endLineNumber then max b.endColumn a.endColumn
    else a.endColumn
  Range.make startLineNumber startColumn endLineNumber endColumn

end Range

/-! ## OffsetRange (`offsetRange.ts`) -/

/-- `OffsetRange`: a 0-based half-open `[start, endExclusive)` range.  The
bare structure carries no invariant; the throwing constructor is modelled by
`OffsetRange.make?`. -/
structure OffsetRange where
  start : Int
  endExclusive : Int
deriving DecidableEq, Repr

namespace OffsetRange

/-- The `OffsetRange` constructor: throws a `BugIndicatingError` (here:
`none`) when `start > endExclusive`. -/
def make? (start endExclusive : Int) : Option OffsetRange :=
  if start > endExclusive then none else some ⟨start, endExclusive⟩

/-- A well-formed offset range, i.e. one the constructor accepts. -/
def Valid (r : OffsetRange) : Prop := r.start ≤ r.endExclusive

instance : DecidablePred Valid :=
  fun r => inferInstanceAs (Decidable (r.start ≤ r.endExclusive))

/-- `length`. -/
def length (r : OffsetRange) : Int := r.endExclusive - r.start

/-- `isEmpty`. -/
def isEmpty (r : OffsetRange) : Bool := r.start == r.endExclusive

/-- `join`: smallest range containing both ranges. -/
def join (a b : OffsetRange) : OffsetRange :=
  ⟨min a.start b.start, max a.endExclusive b.endExclusive⟩

/-- `intersect`: `undefined` when the ranges neither overlap nor touch. -/
def intersect (a b : OffsetRange) : Option OffsetRange :=
  let start := max a.start b.start
  let «end» := min a.endExclusive b.endExclusive
  if start ≤ «end» then some ⟨start, «end»⟩ else none

/-- `intersects`. -/
def intersects (a b : OffsetRange) : Bool :=
  max a.start b.start < min a.endExclusive b.endExclusive

/-- `intersectsOrTouches`. -/
def intersectsOrTouches (a b : OffsetRange) : Bool :=
  max a.start b.start ≤ min a.endExclusive b.endExclusive

/-- `substring`. -/
def substring (r : OffsetRange) (s : List Char) : List Char :=
  substringJS s r.start r.endExclusive

/-- `joinRightTouching`: throws (here: `none`) unless
`this.endExclusive === range.start`. -/
def joinRightTouching (a b : OffsetRange) : Option OffsetRange :=
  if a.endExclusive ≠ b.start then none
  else some ⟨a.start, b.endExclusive⟩

end OffsetRange

/-! ## LineRange (`lineRange.ts`) -/

/-- `LineRange`: a 1-based half-open `[startLineNumber,
endLineNumberExclusive)` range of lines.  The bare structure carries no
invariant; the throwing constructor is modelled by `LineRange.make?`. -/
structure LineRange where
  startLineNumber : Int
  endLineNumberExclusive : Int
deriving DecidableEq, Repr

namespace LineRange

/-- The `LineRange` constructor: throws a `BugIndicatingError` (here:
`none`) when `startLineNumber > endLineNumberExclusive`. -/
def make? (startLineNumber endLineNumberExclusive : Int) : Option LineRange :=
  if startLineNumber > endLineNumberExclusive then none
  else some ⟨startLineNumber, endLineNumberExclusive⟩

/-- A well-formed line range, i.e. one the constructor accepts. -/
def Valid (r : LineRange) : Prop :=
  r.startLineNumber ≤ r.endLineNumberExclusive

instance : DecidablePred Valid :=
  fun r => inferInstanceAs (Decidable (r.startLineNumber ≤ r.endLineNumberExclusive))

/-- `length`. -/
def length (r : LineRange) : Int :=
  r.endLineNumberExclusive - r.startLineNumber

/-- `isEmpty`. -/
def isEmpty (r : LineRange) : Bool :=
  r.startLineNumber == r.endLineNumberExclusive

/-- `join`: smallest line range containing both ranges. -/
def join (a b : LineRange) : LineRange :=
  ⟨min a.startLineNumber b.startLineNumber,
    max a.endLineNumberExclusive b.endLineNumberExclusive⟩

/-- `intersect`: `undefined` when the ranges neither overlap nor touch. -/
def intersect (a b : LineRange) : Option LineRange :=
  let startLineNumber := max a.startLineNumber b.startLineNumber
  let endLineNumberExclusive :=
    min a.endLineNumberExclusive b.endLineNumberExclusive
  if startLineNumber ≤ endLineNumberExclusive then
    some ⟨startLineNumber, endLineNumberExclusive⟩
  else none

/-- `intersectsOrTouches`. -/
def intersectsOrTouches (a b : LineRange) : Bool :=
  a.startLineNumber ≤ b.endLineNumberExclusive ∧
    b.startLineNumber ≤ a.endLineNumberExclusive

end LineRange

/-! ## String edits (`stringEdit.ts`) -/

/-- `StringReplacement`: replace `replaceRange` with `newText`. -/
structure StringReplacement where
  replaceRange : OffsetRange
  newText : List Char
deriving DecidableEq, Repr

namespace StringReplacement

/-- `BaseStringReplacement.replace`:
`str.substring(0, start) + newText + str.substring(endExclusive)`. -/
def replace (r : StringReplacement) (str : List Char) : List Char :=
  substringJS str 0 r.replaceRange.start ++ r.newText ++
    substringFromJS str r.replaceRange.endExclusive

/-- The `prefixLen` computed by `removeCommonSuffixPrefix`. -/
def rcspPrefixLen (r : StringReplacement) (originalText : List Char) : Nat :=
  let oldText := substringJS originalText r.replaceRange.start r.replaceRange.endExclusive
  commonPrefixLength oldText r.newText

/-- The `suffixLen` computed by `removeCommonSuffixPrefix`:
`min(oldText.length - prefixLen, newText.length - prefixLen,
commonSuffixLength(oldText, newText))` (as JavaScript numbers, hence `Int`). -/
def rcspSuffixLen (r : StringReplacement) (originalText : List Char) : Int :=
  let oldText := substringJS originalText r.replaceRange.start r.replaceRange.endExclusive
  let prefixLen := StringReplacement.rcspPrefixLen r originalText
  min (min ((oldText.length : Int) - prefixLen) ((r.newText.length : Int) - prefixLen))
    (commonSuffixLength oldText r.newText : Int)

/-- `BaseStringReplacement.removeCommonSuffixPrefix`: trims the common prefix
and suffix of the replaced text and the replacement text.  The shrunken range
goes through the throwing `OffsetRange` constructor (`none` = throws). -/
def removeCommonSuffixPrefix (r : StringReplacement) (originalText : List Char) :
    Option StringReplacement :=
  let prefixLen := StringReplacement.rcspPrefixLen r originalText
  let suffixLen := StringReplacement.rcspSuffixLen r originalText
  (OffsetRange.make? (r.replaceRange.start + prefixLen)
      (r.replaceRange.endExclusive - suffixLen)).map
    fun replaceRange =>
      ⟨replaceRange, substringJS r.newText prefixLen ((r.newText.length : Int) - suffixLen)⟩

/-- `StringReplacement.tryJoinTouching`: joins the two ranges via the
throwing `joinRightTouching` (`none` = throws) and concatenates the texts. -/
def tryJoinTouching (a b : StringReplacement) : Option StringReplacement :=
  (a.replaceRange.joinRightTouching b.replaceRange).map
    fun range => ⟨range, a.newText ++ b.newText⟩

end StringReplacement

/-- `StringEdit`: an ordered list of replacements, applied at once. -/
structure StringEdit where
  replacements : List StringReplacement
deriving DecidableEq, Repr

/-- The loop body of `BaseStringEdit.apply`: the collected `resultText`
pieces, starting from position `pos`. -/
def applyPieces (base : List Char) : Int → List StringReplacement → List (List Char)
  | pos, [] => [substringFromJS base pos]
  | pos, e :: es =>
    substringJS base pos e.replaceRange.start :: e.newText ::
      applyPieces base e.replaceRange.endExclusive es

namespace StringEdit

/-- `BaseStringEdit.apply`: copies the gaps between consecutive replacement
ranges and substitutes each replacement's new text. -/
def apply (edit : StringEdit) (base : List Char) : List Char :=
  (applyPieces base 0 edit.replacements).flatten

end StringEdit

/-- `AnnotatedStringReplacement<T>`: a replacement with a data payload. -/
structure AnnotatedStringReplacement (α : Type) where
  replaceRange : OffsetRange
  newText : List Char
  data : α
deriving DecidableEq, Repr

namespace AnnotatedStringReplacement

/-- `AnnotatedStringReplacement.tryJoinTouching`: first joins the payloads via
the caller-supplied `join` (returning `undefined` when it refuses, modelled as
`none`), then joins the ranges via the throwing `joinRightTouching`.  The
result is `Option (Option _)`: the outer layer is the thrown
`BugIndicatingError` of `joinRightTouching`, the inner layer is the
`undefined` result. -/
def tryJoinTouching (join : α → α → Option α)
    (a b : AnnotatedStringReplacement α) :
    Option (Option (AnnotatedStringReplacement α)) :=
  match join a.data b.data with
  | none => some none
  | some joined =>
    (a.replaceRange.joinRightTouching b.replaceRange).map
      fun range => some ⟨range, a.newText ++ b.newText, joined⟩

end AnnotatedStringReplacement

/-! ## Range mappings (`rangeMapping.ts`) -/

/-- `RangeMapping`: a character-level correspondence between an original and
a modified range. -/
structure RangeMapping where
  originalRange : Range
  modifiedRange : Range
deriving DecidableEq, Repr

namespace RangeMapping

/-- `RangeMapping.join` (binary). -/
def join (a b : RangeMapping) : RangeMapping :=
  ⟨a.originalRange.plusRange b.originalRange,
    a.modifiedRange.plusRange b.modifiedRange⟩

/-- `RangeMapping.join` (static): throws a `BugIndicatingError` (here:
`none`) on an empty list, otherwise folds the binary `join`. -/
def joinList : List RangeMapping → Option RangeMapping
  | [] => none
  | m :: ms => some (ms.foldl join m)

/-- The condition `RangeMapping.assertSorted` checks for one adjacent pair:
the previous mapping's original and modified end positions must not be after
the current mapping's corresponding start positions. -/
def sortedPair (previous current : RangeMapping) : Bool :=
  previous.originalRange.getEndPosition.isBeforeOrEqual
      current.originalRange.getStartPosition
    && previous.modifiedRange.getEndPosition.isBeforeOrEqual
      current.modifiedRange.getStartPosition

/-- `RangeMapping.assertSorted`: `true` when the check passes, `false` when
it throws a `BugIndicatingError`. -/
def assertSortedB : List RangeMapping → Bool
  | m₁ :: m₂ :: ms => sortedPair m₁ m₂ && assertSortedB (m₂ :: ms)
  | _ => true

end RangeMapping

/-- `DetailedLineRangeMapping`: a line-range correspondence together with
optional character-level inner changes. -/
structure DetailedLineRangeMapping where
  original : LineRange
  modified : LineRange
  innerChanges : Option (List RangeMapping)
deriving DecidableEq, Repr

/-- An abstract text (`AbstractText`), reduced to the only query the mapping
construction uses: the length of each (1-based) line. -/
def LineLengths : Type := Int → Nat

/-- The `lineEndDelta` computed by `getLineRangeMapping` (with
`lineStartDelta` still holding its initial value `0`): `-1` exactly when both
sides end at column 1 and neither line range would become empty-invalid. -/
def lineEndDelta (rm : RangeMapping) : Int :=
  if rm.modifiedRange.endColumn = 1 ∧ rm.originalRange.endColumn = 1
      ∧ rm.originalRange.startLineNumber + 0 ≤ rm.originalRange.endLineNumber
      ∧ rm.modifiedRange.startLineNumber + 0 ≤ rm.modifiedRange.endLineNumber then
    -1
  else 0

/-- The `lineStartDelta` computed by `getLineRangeMapping` (after
`lineEndDelta` has been fixed): `1` exactly when on both sides the start
column lies at or beyond the end of the start line and neither line range
would become empty-invalid. -/
def lineStartDelta (rm : RangeMapping) (originalLines modifiedLines : LineLengths) : Int :=
  if rm.modifiedRange.startColumn - 1 ≥
        (modifiedLines rm.modifiedRange.startLineNumber : Int)
      ∧ rm.originalRange.startColumn - 1 ≥
        (originalLines rm.originalRange.startLineNumber : Int)
      ∧ rm.originalRange.startLineNumber ≤
        rm.originalRange.endLineNumber + lineEndDelta rm
      ∧ rm.modifiedRange.startLineNumber ≤
        rm.modifiedRange.endLineNumber + lineEndDelta rm then
    1
  else 0

/-- `getLineRangeMapping`: converts a character-level `RangeMapping` into a
line-level mapping with the original mapping as its single inner change.  The
`LineRange` constructor cannot throw here (see `getLineRangeMapping_valid`),
so the plain structure constructor is used. -/
def getLineRangeMapping (rm : RangeMapping)
    (originalLines modifiedLines : LineLengths) : DetailedLineRangeMapping :=
  let lineEnd := lineEndDelta rm
  let lineStart := lineStartDelta rm originalLines modifiedLines
  ⟨⟨rm.originalRange.startLineNumber + lineStart,
      rm.originalRange.endLineNumber + 1 + lineEnd⟩,
    ⟨rm.modifiedRange.startLineNumber + lineStart,
      rm.modifiedRange.endLineNumber + 1 + lineEnd⟩,
    some [rm]⟩

/-- `groupAdjacentBy` (`arrays.ts`): splits a list into maximal non-empty
runs of consecutive items related by `p`.  The source walks the list from the
left and starts a new group at exactly those consecutive pairs for which
`shouldBeGrouped` fails; this recursion produces the same cut points. -/
def groupAdjacentBy (p : α → α → Bool) : List α → List (List α)
  | [] => []
  | [x] => [[x]]
  | x :: y :: xs =>
    match groupAdjacentBy p (y :: xs) with
    | [] => [[x]]
    | g :: gs => if p x y then (x :: g) :: gs else [x] :: g :: gs

/-- The grouping predicate of `lineRangeMappingFromRangeMappings`: two
consecutive derived mappings belong to one group when they intersect or touch
on the original or on the modified side. -/
def shouldGroup (a b : DetailedLineRangeMapping) : Bool :=
  a.original.intersectsOrTouches b.original
    || a.modified.intersectsOrTouches b.modified

/-- The change built from one group `g`: join of the first and last members
on both sides, with the members' single inner changes collected in order
(`g.map(a => a.innerChanges![0])`; the non-null assertion and the index are
modelled by defaults that are unreachable for groups produced by
`getLineRangeMapping`). -/
def changeOfGroup (g : List DetailedLineRangeMapping) : DetailedLineRangeMapping :=
  let first := g.headD ⟨⟨1, 1⟩, ⟨1, 1⟩, none⟩
  let last := g.getLastD ⟨⟨1, 1⟩, ⟨1, 1⟩, none⟩
  ⟨first.original.join last.original,
    first.modified.join last.modified,
    some (g.map fun a => (a.innerChanges.getD []).headD ⟨⟨1, 1, 1, 1⟩, ⟨1, 1, 1, 1⟩⟩)⟩

/-- `lineRangeMappingFromRangeMappings`: maps each alignment to its derived
line mapping, groups adjacent derived mappings that intersect or touch on
either side, and joins each group into one `DetailedLineRangeMapping`.  (The
trailing `assertFn` only reports; it does not change the result.) -/
def lineRangeMappingFromRangeMappings (alignments : List RangeMapping)
    (originalLines modifiedLines : LineLengths) : List DetailedLineRangeMapping :=
  (groupAdjacentBy shouldGroup
      (alignments.map fun a => getLineRangeMapping a originalLines modifiedLines)).map
    changeOfGroup

/-- The adjacency check of the `assertFn` at the end of
`lineRangeMappingFromRangeMappings`: equal line deltas and at least one
unchanged line in between on both sides. -/
def separated (m₁ m₂ : DetailedLineRangeMapping) : Bool :=
  m₂.original.startLineNumber - m₁.original.endLineNumberExclusive
      == m₂.modified.startLineNumber - m₁.modified.endLineNumberExclusive
    && m₁.original.endLineNumberExclusive < m₂.original.startLineNumber
    && m₁.modified.endLineNumberExclusive < m₂.modified.startLineNumber

/-- Well-formedness of a replacement list against a base of length `len`,
from position `pos`: the replacements are sorted in ascending range order,
pairwise non-overlapping and contained in `[pos, len]`. -/
def editWFB (len : Nat) : Int → List StringReplacement → Bool
  | pos, [] => pos ≤ (len : Int)
  | pos, r :: rs =>
    pos ≤ r.replaceRange.start
      && r.replaceRange.start ≤ r.replaceRange.endExclusive
      && editWFB len r.replaceRange.endExclusive rs

/-- The reference result of applying an edit, written from the spec's
formula: `s[pos..r1.start) ++ r1.newText ++ s[r1.endExclusive..r2.start) ++
... ++ rk.newText ++ s[rk.endExclusive..s.length)`, where `s[a..b)` denotes
the literal slice of the base. -/
def refApply (s : List Char) : Int → List StringReplacement → List Char
  | pos, [] => s.drop pos.toNat
  | pos, r :: rs =>
    (s.take r.replaceRange.start.toNat).drop pos.toNat ++ r.newText ++
      refApply s r.replaceRange.endExclusive rs

/-- An adjacent pair is out of order when the earlier mapping's original or
modified end position is strictly after the later mapping's corresponding
start position. -/
def RangeMapping.outOfOrder (previous current : RangeMapping) : Bool :=
  Position.isBefore current.originalRange.getStartPosition
      previous.originalRange.getEndPosition
    || Position.isBefore current.modifiedRange.getStartPosition
      previous.modifiedRange.getEndPosition

/-- A concrete sorted list of range mappings (used to evaluate
`lineRangeMappingFromRangeMappings` on an adversarial input). -/
def cexAlignments : List RangeMapping :=
  [⟨⟨1, 1, 1, 3⟩, ⟨1, 3, 1, 3⟩⟩,
   ⟨⟨2, 1, 2, 1⟩, ⟨2, 3, 3, 3⟩⟩,
   ⟨⟨2, 3, 4, 1⟩, ⟨4, 1, 4, 1⟩⟩]

/-- Original-side line lengths for the adversarial input. -/
def cexOrigLen : LineLengths := fun n => if n = 3 then 2 else 0

/-- Modified-side line lengths for the adversarial input. -/
def cexModLen : LineLengths := fun n => if n = 1 then 1 else if n = 2 then 1 else 0

/-- The output of `lineRangeMappingFromRangeMappings` on the adversarial
input. -/
def cexOutput : List DetailedLineRangeMapping :=
  lineRangeMappingFromRangeMappings cexAlignments cexOrigLen cexModLen

/-! ## Range sets (`offsetRange.ts`, `lineRange.ts`) -/

namespace OffsetRangeSet

/-- `OffsetRangeSet.addRange` acting on the `_sortedRanges` list: the first
`while` loop skips the ranges lying strictly before `range` (index `i` =
length of `before`), the second collects the ranges that intersect or touch
`range` (index `j` = `i` + length of `touched`); `splice` then either inserts
`range` or replaces `touched` by the join of `range` with the first and last
touched ranges. -/
def addRange (rs : List OffsetRange) (range : OffsetRange) : List OffsetRange :=
  let before := rs.takeWhile fun r => r.endExclusive < range.start
  let rest := rs.dropWhile fun r => r.endExclusive < range.start
  let touched := rest.takeWhile fun r => r.start ≤ range.endExclusive
  let after := rest.dropWhile fun r => r.start ≤ range.endExclusive
  if touched.isEmpty then before ++ range :: after
  else
    before ++
      (⟨min range.start (touched.headD range).start,
          max range.endExclusive (touched.getLastD range).endExclusive⟩ : OffsetRange)
        :: after

/-- A point lies in the set when some stored range contains it. -/
def containsPoint (rs : List OffsetRange) (k : Int) : Prop :=
  ∃ r ∈ rs, r.start ≤ k ∧ k < r.endExclusive

/-- The `_sortedRanges` invariant: well-formed ranges, sorted, pairwise
neither overlapping nor touching (maximally merged). -/
def Normalized (rs : List OffsetRange) : Prop :=
  List.Chain' (fun a b => a.endExclusive < b.start) rs
    ∧ ∀ r ∈ rs, r.Valid

end OffsetRangeSet

/-- Modelled from the spec: `findFirstIdxMonotonousOrArrLen` is imported from
`vs/base/common/arraysFind.ts`, which is not part of this repository
snapshot.  Per its name and the call-site comment ("idx of first element
that touches range or that is after range") it returns the first index
satisfying the monotone predicate, or the array length. -/
def findFirstIdxMonotonousOrArrLen (rs : List α) (p : α → Bool) : Nat :=
  rs.findIdx p

/-- Modelled from the spec: `findLastIdxMonotonous` is imported from
`vs/base/common/arraysFind.ts`, which is not part of this repository
snapshot.  Per its name and the call-site comment ("idx of element after {
last element that touches range or that is before range }", computed as this
value plus one) it returns the last index satisfying the monotone predicate,
or `-1`. -/
def findLastIdxMonotonous : List α → (α → Bool) → Int
  | [], _ => -1
  | x :: xs, p =>
    let r := findLastIdxMonotonous xs p
    if r ≥ 0 then r + 1 else if p x then 0 else -1

namespace LineRangeSet

/-- `LineRangeSet.addRange` acting on the `_normalizedRanges` list: empty
ranges are ignored; otherwise the touched span `[joinRangeStartIdx,
joinRangeEndIdxExclusive)` is located with the two monotone searches, and the
three branches insert the range, join it into the single touched element, or
splice the whole touched span with the join of its first and last elements
and the range. -/
def addRange (rs : List LineRange) (range : LineRange) : List LineRange :=
  if range.length = 0 then rs
  else
    let joinRangeStartIdx := findFirstIdxMonotonousOrArrLen rs
      fun r => r.endLineNumberExclusive ≥ range.startLineNumber
    let joinRangeEndIdxExclusive := (findLastIdxMonotonous rs
      fun r => r.startLineNumber ≤ range.endLineNumberExclusive) + 1
    if (joinRangeStartIdx : Int) = joinRangeEndIdxExclusive then
      rs.take joinRangeStartIdx ++ range :: rs.drop joinRangeStartIdx
    else if (joinRangeStartIdx : Int) = joinRangeEndIdxExclusive - 1 then
      rs.set joinRangeStartIdx ((rs.getD joinRangeStartIdx ⟨1, 1⟩).join range)
    else
      rs.take joinRangeStartIdx ++
        (((rs.getD joinRangeStartIdx ⟨1, 1⟩).join
            (rs.getD (joinRangeEndIdxExclusive.toNat - 1) ⟨1, 1⟩)).join range)
          :: rs.drop joinRangeEndIdxExclusive.toNat

/-- Splice normal form of `LineRangeSet.addRange` (proof artifact): the same
before/touched/after decomposition as `OffsetRangeSet.addRange`.  For
normalized inputs `addRange` computes this form (`addRange_eq_nf`). -/
def addRangeNF (rs : List LineRange) (range : LineRange) : List LineRange :=
  let before := rs.takeWhile fun r =>
    r.endLineNumberExclusive < range.startLineNumber
  let rest := rs.dropWhile fun r =>
    r.endLineNumberExclusive < range.startLineNumber
  let touched := rest.takeWhile fun r =>
    r.startLineNumber ≤ range.endLineNumberExclusive
  let after := rest.dropWhile fun r =>
    r.startLineNumber ≤ range.endLineNumberExclusive
  if touched.isEmpty then before ++ range :: after
  else
    before ++
      (⟨min range.startLineNumber (touched.headD range).startLineNumber,
          max range.endLineNumberExclusive
            (touched.getLastD range).endLineNumberExclusive⟩ : LineRange)
        :: after

/-- A line lies in the set when some stored range contains it. -/
def containsLine (rs : List LineRange) (k : Int) : Prop :=
  ∃ r ∈ rs, r.startLineNumber ≤ k ∧ k < r.endLineNumberExclusive

/-- The `_normalizedRanges` invariant: well-formed ranges, "sorted by start
line number; no two line ranges are touching or intersecting". -/
def Normalized (rs : List LineRange) : Prop :=
  List.Chain' (fun a b => a.endLineNumberExclusive < b.startLineNumber) rs
    ∧ ∀ r ∈ rs, r.Valid

end LineRangeSet

/-! ## Theorems -/

/-- C8: constructing a `LineRange` or an `OffsetRange` with start strictly
greater than the exclusive end fails with a `BugIndicatingError`, while the
`Range` constructor never fails: when the given start position is after the
given end position it swaps the endpoints, so every constructed `Range` has
`startLineNumber ≤ endLineNumber`, and `startColumn ≤ endColumn` whenever
both line numbers agree. -/
theorem c8_constructors (s e sl sc el ec : Int) :
    (LineRange.make? s e = none ↔ s > e)
    ∧ (OffsetRange.make? s e = none ↔ s > e)
    ∧ ((sl > el ∨ (sl = el ∧ sc > ec)) →
        Range.make sl sc el ec = ⟨el, ec, sl, sc⟩)
    ∧ (Range.make sl sc el ec).startLineNumber ≤ (Range.make sl sc el ec).endLineNumber
    ∧ ((Range.make sl sc el ec).startLineNumber = (Range.make sl sc el ec).endLineNumber →
        (Range.make sl sc el ec).startColumn ≤ (Range.make sl sc el ec).endColumn) := by
  refine ⟨?_, ?_, ?_, ?_, ?_⟩
  · simp only [LineRange.make?]
    split <;> simp_all
  · simp only [OffsetRange.make?]
    split <;> simp_all
  · intro h
    simp only [Range.make, if_pos h]
  · simp only [Range.make]
    split <;> simp <;> omega
  · simp only [Range.make]
    split <;> simp <;> omega

/-- C8 witness: concrete evaluation of the three constructors. -/
theorem c8_constructors_witness :
    (VsDiff.LineRange.make? 3 1 = none ↔ (3:Int) > 1)
    ∧ (VsDiff.OffsetRange.make? 3 1 = none ↔ (3:Int) > 1)
    ∧ (((3:Int) > 1 ∨ ((3:Int) = 1 ∧ (2:Int) > 7)) →
        VsDiff.Range.make 3 2 1 7 = ⟨1, 7, 3, 2⟩)
    ∧ (VsDiff.Range.make 3 2 1 7).startLineNumber ≤ (VsDiff.Range.make 3 2 1 7).endLineNumber
    ∧ ((VsDiff.Range.make 3 2 1 7).startLineNumber = (VsDiff.Range.make 3 2 1 7).endLineNumber →
        (VsDiff.Range.make 3 2 1 7).startColumn ≤ (VsDiff.Range.make 3 2 1 7).endColumn) :=
  c8_constructors 3 1 3 2 1 7

/-- C9: for valid ranges, `intersect` returns
`[max(starts), min(ends))` exactly when the ranges intersect or touch, and
returns no value when they neither overlap nor touch — for `LineRange` and
for `OffsetRange` alike. -/
theorem c9_intersect (a b : LineRange) (p q : OffsetRange)
    (ha : a.Valid) (hb : b.Valid) :
    (a.intersect b =
      if a.intersectsOrTouches b then
        some ⟨max a.startLineNumber b.startLineNumber,
          min a.endLineNumberExclusive b.endLineNumberExclusive⟩
      else none)
    ∧ (p.intersect q =
      if p.intersectsOrTouches q then
        some ⟨max p.start q.start, min p.endExclusive q.endExclusive⟩
      else none) := by
  unfold LineRange.Valid at ha hb
  constructor
  · simp only [LineRange.intersect, LineRange.intersectsOrTouches]
    split
    · rw [if_pos]
      simp only [decide_eq_true_eq]
      omega
    · rw [if_neg]
      simp only [decide_eq_true_eq]
      omega
  · simp only [OffsetRange.intersect, OffsetRange.intersectsOrTouches]
    split
    · rw [if_pos]
      simp only [decide_eq_true_eq]
      omega
    · rw [if_neg]
      simp only [decide_eq_true_eq]
      omega

/-- C9 witness: touching line ranges `[1,3)`, `[3,5)` and disjoint offset
ranges `[0,1)`, `[5,9)`. -/
theorem c9_intersect_witness :
    ((⟨1, 3⟩ : VsDiff.LineRange).intersect ⟨3, 5⟩ =
      if (⟨1, 3⟩ : VsDiff.LineRange).intersectsOrTouches ⟨3, 5⟩ then
        some ⟨max (1:Int) 3, min (3:Int) 5⟩
      else none)
    ∧ ((⟨0, 1⟩ : VsDiff.OffsetRange).intersect ⟨5, 9⟩ =
      if (⟨0, 1⟩ : VsDiff.OffsetRange).intersectsOrTouches ⟨5, 9⟩ then
        some ⟨max (0:Int) 5, min (1:Int) 9⟩
      else none) :=
  c9_intersect ⟨1, 3⟩ ⟨3, 5⟩ ⟨0, 1⟩ ⟨5, 9⟩ (by decide) (by decide)

/-- C7: on touching ranges, `StringReplacement.tryJoinTouching` returns the
replacement covering `[r1.start, r2.endExclusive)` with the concatenated
text, and `AnnotatedStringReplacement.tryJoinTouching` additionally joins the
payloads and returns `undefined` exactly when `data.join` refuses. -/
theorem c7_tryJoinTouching {α : Type} (a b : StringReplacement)
    (c d : AnnotatedStringReplacement α) (join : α → α → Option α)
    (hab : a.replaceRange.endExclusive = b.replaceRange.start)
    (hcd : c.replaceRange.endExclusive = d.replaceRange.start) :
    a.tryJoinTouching b =
      some ⟨⟨a.replaceRange.start, b.replaceRange.endExclusive⟩,
        a.newText ++ b.newText⟩
    ∧ (AnnotatedStringReplacement.tryJoinTouching join c d = some none ↔
        join c.data d.data = none)
    ∧ (∀ j, join c.data d.data = some j →
        AnnotatedStringReplacement.tryJoinTouching join c d =
          some (some ⟨⟨c.replaceRange.start, d.replaceRange.endExclusive⟩,
            c.newText ++ d.newText, j⟩)) := by
  refine ⟨?_, ?_, ?_⟩
  · simp [StringReplacement.tryJoinTouching, OffsetRange.joinRightTouching, hab]
  · simp only [AnnotatedStringReplacement.tryJoinTouching]
    cases hj : join c.data d.data with
    | none => simp
    | some j => simp [OffsetRange.joinRightTouching, hcd]
  · intro j hj
    simp [AnnotatedStringReplacement.tryJoinTouching, hj,
      OffsetRange.joinRightTouching, hcd]

/-- C7 witness: concrete touching replacements; the annotated payloads are
naturals joined only when equal. -/
theorem c7_tryJoinTouching_witness :
    (VsDiff.StringReplacement.tryJoinTouching ⟨⟨0, 2⟩, [Char.ofNat 97]⟩ ⟨⟨2, 5⟩, [Char.ofNat 98]⟩ =
      some ⟨⟨0, 5⟩, [Char.ofNat 97] ++ [Char.ofNat 98]⟩)
    ∧ (VsDiff.AnnotatedStringReplacement.tryJoinTouching
          (fun x y : Nat => if x = y then some x else none)
          ⟨⟨0, 2⟩, [Char.ofNat 97], 4⟩ ⟨⟨2, 5⟩, [Char.ofNat 98], 4⟩ = some none ↔
        (fun x y : Nat => if x = y then some x else none) 4 4 = none)
    ∧ (∀ j, (fun x y : Nat => if x = y then some x else none) 4 4 = some j →
        VsDiff.AnnotatedStringReplacement.tryJoinTouching
            (fun x y : Nat => if x = y then some x else none)
            ⟨⟨0, 2⟩, [Char.ofNat 97], 4⟩ ⟨⟨2, 5⟩, [Char.ofNat 98], 4⟩ =
          some (some ⟨⟨0, 5⟩, [Char.ofNat 97] ++ [Char.ofNat 98], j⟩)) :=
  c7_tryJoinTouching ⟨⟨0, 2⟩, [Char.ofNat 97]⟩ ⟨⟨2, 5⟩, [Char.ofNat 98]⟩
    ⟨⟨0, 2⟩, [Char.ofNat 97], 4⟩ ⟨⟨2, 5⟩, [Char.ofNat 98], 4⟩
    (fun x y => if x = y then some x else none) (by decide) (by decide)

theorem sortedPair_false_iff (p c : RangeMapping) :
    RangeMapping.sortedPair p c = false ↔ RangeMapping.outOfOrder p c = true := by
  simp only [RangeMapping.sortedPair, RangeMapping.outOfOrder,
    Position.isBeforeOrEqual, Position.isBefore, Bool.and_eq_false_iff,
    Bool.or_eq_true]
  constructor
  · rintro (h | h)
    · left; split at h <;> split <;> simp_all
    · right; split at h <;> split <;> simp_all
  · rintro (h | h)
    · left; split at h <;> split <;> simp_all <;> omega
    · right; split at h <;> split <;> simp_all <;> omega

theorem assertSortedB_eq_true_iff (l : List RangeMapping) :
    RangeMapping.assertSortedB l = true ↔
      List.Chain' (fun p c => RangeMapping.sortedPair p c = true) l := by
  induction l with
  | nil => simp [RangeMapping.assertSortedB]
  | cons m ms ih =>
    cases ms with
    | nil => simp [RangeMapping.assertSortedB]
    | cons m₂ ms₂ =>
      simp only [RangeMapping.assertSortedB, Bool.and_eq_true, ih,
        List.chain'_cons]

/-- C10: `RangeMapping.join` of an empty list fails with a
`BugIndicatingError` and succeeds on every non-empty list;
`RangeMapping.assertSorted` fails with a `BugIndicatingError` exactly when
some adjacent pair of mappings is out of order (the earlier mapping's
original or modified end position is strictly after the later mapping's
corresponding start position). -/
theorem c10_join_assertSorted (l : List RangeMapping) (hl : l ≠ []) :
    RangeMapping.joinList ([] : List RangeMapping) = none
    ∧ (∃ r, RangeMapping.joinList l = some r)
    ∧ (∀ ms : List RangeMapping,
        RangeMapping.assertSortedB ms = false ↔
          ∃ i, ∃ h : i + 1 < ms.length,
            RangeMapping.outOfOrder (ms.get ⟨i, Nat.lt_of_succ_lt h⟩)
              (ms.get ⟨i + 1, h⟩) = true) := by
  refine ⟨rfl, ?_, ?_⟩
  · cases l with
    | nil => exact absurd rfl hl
    | cons m ms => exact ⟨ms.foldl RangeMapping.join m, rfl⟩
  · intro ms
    rw [← Bool.not_eq_true, assertSortedB_eq_true_iff, List.chain'_iff_get]
    push_neg
    constructor
    · rintro ⟨i, hi, hbad⟩
      refine ⟨i, by omega, ?_⟩
      rw [← sortedPair_false_iff]
      simpa using hbad
    · rintro ⟨i, hi, hbad⟩
      refine ⟨i, by omega, ?_⟩
      simp only [Bool.not_eq_true, sortedPair_false_iff]
      exact hbad

/-- On ordered non-negative indices, the JavaScript `substring` is the
literal slice. -/
theorem substringJS_eq (s : List Char) (a b : Int) (ha : 0 ≤ a) (hab : a ≤ b) :
    substringJS s a b = (s.take b.toNat).drop a.toNat := by
  simp only [substringJS]
  have hmaxa : max a 0 = a := by omega
  have hmaxb : max b 0 = b := by omega
  rw [hmaxa, hmaxb]
  have hi : (min a (s.length : Int)).toNat = min a.toNat s.length := by omega
  have hj : (min b (s.length : Int)).toNat = min b.toNat s.length := by omega
  rw [hi, hj]
  have hij : min a.toNat s.length ≤ min b.toNat s.length := by omega
  rw [max_eq_right hij, min_eq_left hij]
  rcases le_or_lt b.toNat s.length with hb | hb
  · have ha' : a.toNat ≤ s.length := by omega
    rw [min_eq_left hb, min_eq_left ha']
  · rw [min_eq_right hb.le, List.take_length, List.take_of_length_le hb.le]
    rcases le_or_lt a.toNat s.length with ha' | ha'
    · rw [min_eq_left ha']
    · rw [min_eq_right ha'.le, List.drop_eq_nil_of_le le_rfl,
        List.drop_eq_nil_of_le ha'.le]

/-- The one-argument `substring` from a non-negative in-bounds index is the
literal suffix. -/
theorem substringFromJS_eq (s : List Char) (a : Int) (ha : 0 ≤ a)
    (ha' : a ≤ (s.length : Int)) :
    substringFromJS s a = s.drop a.toNat := by
  rw [substringFromJS, substringJS_eq s a _ ha ha', Int.toNat_natCast,
    List.take_length]

theorem applyPieces_flatten (s : List Char) (pos : Int)
    (rs : List StringReplacement) (hpos : 0 ≤ pos)
    (h : editWFB s.length pos rs = true) :
    (applyPieces s pos rs).flatten = refApply s pos rs := by
  induction rs generalizing pos with
  | nil =>
    simp only [editWFB, decide_eq_true_eq] at h
    simp only [applyPieces, refApply, List.flatten, List.append_nil]
    exact substringFromJS_eq s pos hpos h
  | cons r rs ih =>
    simp only [editWFB, Bool.and_eq_true, decide_eq_true_eq] at h
    obtain ⟨⟨h₁, h₂⟩, h₃⟩ := h
    simp only [applyPieces, refApply, List.flatten]
    rw [substringJS_eq s pos r.replaceRange.start hpos h₁,
      ih r.replaceRange.endExclusive (by omega) h₃, List.append_assoc]

/-- C1: for every base string and every `StringEdit` whose replacements are
sorted in ascending range order, pairwise non-overlapping and contained in
`[0, s.length]`, `apply(s)` equals the reference result obtained by copying
the base verbatim outside the replaced spans and substituting each
replacement's `newText` for its target span. -/
theorem c1_apply (s : List Char) (rs : List StringReplacement)
    (h : editWFB s.length 0 rs = true) :
    StringEdit.apply ⟨rs⟩ s = refApply s 0 rs :=
  applyPieces_flatten s 0 rs le_rfl h

/-- C1 witness: base `"abcde"`, replacing `[1,2)` by `"xy"` and `[3,3)` by
`"z"` yields `"axycz" ++ "de"` as the reference formula predicts. -/
theorem c1_apply_witness :
    editWFB (String.toList "abcde").length 0
        [⟨⟨1, 2⟩, String.toList "xy"⟩, ⟨⟨3, 3⟩, String.toList "z"⟩] = true
    ∧ StringEdit.apply ⟨[⟨⟨1, 2⟩, String.toList "xy"⟩, ⟨⟨3, 3⟩, String.toList "z"⟩]⟩
        (String.toList "abcde") =
      refApply (String.toList "abcde") 0
        [⟨⟨1, 2⟩, String.toList "xy"⟩, ⟨⟨3, 3⟩, String.toList "z"⟩] :=
  ⟨by decide, c1_apply (String.toList "abcde")
    [⟨⟨1, 2⟩, String.toList "xy"⟩, ⟨⟨3, 3⟩, String.toList "z"⟩] (by decide)⟩

theorem commonPrefixLength_le (a b : List Char) :
    commonPrefixLength a b ≤ a.length ∧ commonPrefixLength a b ≤ b.length := by
  induction a generalizing b with
  | nil => cases b <;> simp [commonPrefixLength]
  | cons x as ih =>
    cases b with
    | nil => simp [commonPrefixLength]
    | cons y bs =>
      simp only [commonPrefixLength, List.length_cons]
      split
      · have := ih bs
        omega
      · omega

theorem take_commonPrefixLength (a b : List Char) (n : Nat)
    (h : n ≤ commonPrefixLength a b) : a.take n = b.take n := by
  induction a generalizing b n with
  | nil =>
    cases b <;> simp only [commonPrefixLength, Nat.le_zero] at h <;> simp [h]
  | cons x as ih =>
    cases b with
    | nil =>
      simp only [commonPrefixLength, Nat.le_zero] at h
      simp [h]
    | cons y bs =>
      simp only [commonPrefixLength] at h
      by_cases hxy : x = y
      · rw [if_pos hxy] at h
        cases n with
        | zero => simp
        | succ m => simp [hxy, ih bs m (by omega)]
      · rw [if_neg hxy] at h
        have hn : n = 0 := by omega
        simp [hn]

theorem commonSuffixLength_le (a b : List Char) :
    commonSuffixLength a b ≤ a.length ∧ commonSuffixLength a b ≤ b.length := by
  have := commonPrefixLength_le a.reverse b.reverse
  simpa [commonSuffixLength] using this

theorem drop_commonSuffixLength (a b : List Char) (q : Nat)
    (h : q ≤ commonSuffixLength a b) :
    a.drop (a.length - q) = b.drop (b.length - q) := by
  have ha : a.drop (a.length - q) = (a.reverse.take q).reverse := by
    rw [← List.rtake_eq_reverse_take_reverse, List.rtake]
  have hb : b.drop (b.length - q) = (b.reverse.take q).reverse := by
    rw [← List.rtake_eq_reverse_take_reverse, List.rtake]
  rw [ha, hb, take_commonPrefixLength a.reverse b.reverse q h]

/-- A contained substring has the expected length. -/
theorem substringJS_length (s : List Char) (a b : Int) (h0 : 0 ≤ a)
    (hab : a ≤ b) (hb : b ≤ (s.length : Int)) :
    ((substringJS s a b).length : Int) = b - a := by
  rw [substringJS_eq s a b h0 hab]
  simp only [List.length_drop, List.length_take]
  omega

/-- C3: for a replacement contained in the base string,
`removeCommonSuffixPrefix` never lets the trimmed prefix and suffix overlap:
the suffix length is non-negative, `prefixLen + suffixLen` is at most the
minimum of the replaced old text's length and the new text's length, and the
shrunken replace range is a well-formed `OffsetRange` — the `OffsetRange`
constructor's error branch is unreachable (the result is always `some`). -/
theorem c3_removeCommonSuffixPrefix_safe (r : StringReplacement) (s : List Char)
    (h0 : 0 ≤ r.replaceRange.start) (hv : r.replaceRange.Valid)
    (hc : r.replaceRange.endExclusive ≤ (s.length : Int)) :
    0 ≤ StringReplacement.rcspSuffixLen r s
    ∧ (StringReplacement.rcspPrefixLen r s : Int) + StringReplacement.rcspSuffixLen r s ≤
        min ((r.replaceRange.substring s).length : Int) (r.newText.length : Int)
    ∧ ∃ r', r.removeCommonSuffixPrefix s = some r'
        ∧ r'.replaceRange = ⟨r.replaceRange.start + StringReplacement.rcspPrefixLen r s,
            r.replaceRange.endExclusive - StringReplacement.rcspSuffixLen r s⟩
        ∧ r'.replaceRange.Valid := by
  obtain ⟨hp_old, hp_new⟩ := commonPrefixLength_le
    (substringJS s r.replaceRange.start r.replaceRange.endExclusive) r.newText
  have hlen := substringJS_length s r.replaceRange.start
    r.replaceRange.endExclusive h0 hv hc
  have hp : StringReplacement.rcspPrefixLen r s = commonPrefixLength
      (substringJS s r.replaceRange.start r.replaceRange.endExclusive)
      r.newText := rfl
  have hq : StringReplacement.rcspSuffixLen r s = min
      (min (((substringJS s r.replaceRange.start r.replaceRange.endExclusive).length : Int)
          - StringReplacement.rcspPrefixLen r s)
        ((r.newText.length : Int) - StringReplacement.rcspPrefixLen r s))
      ((commonSuffixLength
          (substringJS s r.replaceRange.start r.replaceRange.endExclusive)
          r.newText : Nat) : Int) := rfl
  have hq0 : 0 ≤ StringReplacement.rcspSuffixLen r s := by
    rw [hq]
    refine le_min (le_min (by omega) (by omega)) (by positivity)
  have hq1 : StringReplacement.rcspSuffixLen r s ≤
      ((substringJS s r.replaceRange.start r.replaceRange.endExclusive).length : Int)
        - StringReplacement.rcspPrefixLen r s := by
    rw [hq]
    exact le_trans (min_le_left _ _) (min_le_left _ _)
  have hq2 : StringReplacement.rcspSuffixLen r s ≤ (r.newText.length : Int) - StringReplacement.rcspPrefixLen r s := by
    rw [hq]
    exact le_trans (min_le_left _ _) (min_le_right _ _)
  simp only [OffsetRange.substring]
  refine ⟨hq0, le_min (by omega) (by omega), ?_⟩
  refine ⟨⟨⟨r.replaceRange.start + StringReplacement.rcspPrefixLen r s,
      r.replaceRange.endExclusive - StringReplacement.rcspSuffixLen r s⟩,
    substringJS r.newText (StringReplacement.rcspPrefixLen r s)
      ((r.newText.length : Int) - StringReplacement.rcspSuffixLen r s)⟩, ?_, rfl, by
        simp only [OffsetRange.Valid]
        omega⟩
  simp only [StringReplacement.removeCommonSuffixPrefix, OffsetRange.make?]
  rw [if_neg (by omega)]
  rfl

/-- C3 witness: replacing `[1,4)` of `"abcde"` (old text `"bcd"`) by
`"bxd"`. -/
theorem c3_removeCommonSuffixPrefix_safe_witness :
    0 ≤ StringReplacement.rcspSuffixLen ⟨⟨1, 4⟩, String.toList "bxd"⟩ (String.toList "abcde")
    ∧ (StringReplacement.rcspPrefixLen ⟨⟨1, 4⟩, String.toList "bxd"⟩ (String.toList "abcde") : Int)
        + StringReplacement.rcspSuffixLen ⟨⟨1, 4⟩, String.toList "bxd"⟩ (String.toList "abcde") ≤
        min (((OffsetRange.substring ⟨1, 4⟩ (String.toList "abcde")).length : Int))
          ((String.toList "bxd").length : Int)
    ∧ ∃ r', StringReplacement.removeCommonSuffixPrefix
          ⟨⟨1, 4⟩, String.toList "bxd"⟩ (String.toList "abcde") = some r'
        ∧ r'.replaceRange = ⟨1 + StringReplacement.rcspPrefixLen ⟨⟨1, 4⟩, String.toList "bxd"⟩
              (String.toList "abcde"),
            4 - StringReplacement.rcspSuffixLen ⟨⟨1, 4⟩, String.toList "bxd"⟩ (String.toList "abcde")⟩
        ∧ r'.replaceRange.Valid :=
  c3_removeCommonSuffixPrefix_safe ⟨⟨1, 4⟩, String.toList "bxd"⟩
    (String.toList "abcde") (by decide) (by decide) (by decide)

/-- C4: for a replacement contained in the base string, trimming the common
prefix and suffix never changes the result of applying the replacement:
`r.removeCommonSuffixPrefix(s).replace(s) = r.replace(s)`. -/
theorem c4_removeCommonSuffixPrefix_replace (r : StringReplacement) (s : List Char)
    (h0 : 0 ≤ r.replaceRange.start) (hv : r.replaceRange.Valid)
    (hc : r.replaceRange.endExclusive ≤ (s.length : Int)) :
    ∃ r', r.removeCommonSuffixPrefix s = some r'
      ∧ r'.replace s = r.replace s := by
  obtain ⟨hp_old, hp_new⟩ := commonPrefixLength_le
    (substringJS s r.replaceRange.start r.replaceRange.endExclusive) r.newText
  have hlen := substringJS_length s r.replaceRange.start
    r.replaceRange.endExclusive h0 hv hc
  have hp : r.rcspPrefixLen s = commonPrefixLength
      (substringJS s r.replaceRange.start r.replaceRange.endExclusive)
      r.newText := rfl
  have hq : r.rcspSuffixLen s = min
      (min (((substringJS s r.replaceRange.start r.replaceRange.endExclusive).length : Int)
          - r.rcspPrefixLen s)
        ((r.newText.length : Int) - r.rcspPrefixLen s))
      ((commonSuffixLength
          (substringJS s r.replaceRange.start r.replaceRange.endExclusive)
          r.newText : Nat) : Int) := rfl
  have hq0 : 0 ≤ r.rcspSuffixLen s := by
    rw [hq]
    refine le_min (le_min (by omega) (by omega)) (by positivity)
  have hq1 : r.rcspSuffixLen s ≤
      ((substringJS s r.replaceRange.start r.replaceRange.endExclusive).length : Int)
        - r.rcspPrefixLen s := by
    rw [hq]
    exact le_trans (min_le_left _ _) (min_le_left _ _)
  have hq2 : r.rcspSuffixLen s ≤ (r.newText.length : Int) - r.rcspPrefixLen s := by
    rw [hq]
    exact le_trans (min_le_left _ _) (min_le_right _ _)
  have hqcsl : r.rcspSuffixLen s ≤ (commonSuffixLength
      (substringJS s r.replaceRange.start r.replaceRange.endExclusive)
      r.newText : Nat) := by
    rw [hq]
    exact min_le_right _ _
  refine ⟨⟨⟨r.replaceRange.start + r.rcspPrefixLen s,
      r.replaceRange.endExclusive - r.rcspSuffixLen s⟩,
    substringJS r.newText (r.rcspPrefixLen s)
      ((r.newText.length : Int) - r.rcspSuffixLen s)⟩, ?_, ?_⟩
  · simp only [StringReplacement.removeCommonSuffixPrefix, OffsetRange.make?]
    rw [if_neg (by omega)]
    rfl
  · -- Both `replace` results coincide.
    simp only [StringReplacement.replace]
    -- Nat-level names for the bounds involved.
    obtain ⟨a, ha⟩ : ∃ a : Nat, (a : Int) = r.replaceRange.start :=
      ⟨r.replaceRange.start.toNat, by omega⟩
    obtain ⟨e, he⟩ : ∃ e : Nat, (e : Int) = r.replaceRange.endExclusive :=
      ⟨r.replaceRange.endExclusive.toNat, by omega⟩
    obtain ⟨qn, hqn⟩ : ∃ qn : Nat, (qn : Int) = r.rcspSuffixLen s :=
      ⟨(r.rcspSuffixLen s).toNat, by omega⟩
    set p := r.rcspPrefixLen s with hpdef
    set N := r.newText.length with hN
    have hae : a ≤ e := by omega
    have hes : e ≤ s.length := by omega
    have holdlen : (substringJS s r.replaceRange.start
        r.replaceRange.endExclusive).length = e - a := by omega
    have hple : p ≤ e - a := by omega
    have hqle : qn ≤ (e - a) - p := by omega
    have hpq : p + qn ≤ N := by omega
    -- The five substring computations, reduced to take/drop.
    have e₁ : substringJS s 0 (r.replaceRange.start + p) = s.take (a + p) := by
      rw [substringJS_eq s 0 _ le_rfl (by omega)]
      have : (r.replaceRange.start + (p : Int)).toNat = a + p := by omega
      rw [this, Int.toNat_zero, List.drop_zero]
    have e₂ : substringJS s 0 r.replaceRange.start = s.take a := by
      rw [substringJS_eq s 0 _ le_rfl (by omega)]
      have : (r.replaceRange.start).toNat = a := by omega
      rw [this, Int.toNat_zero, List.drop_zero]
    have e₃ : substringFromJS s r.replaceRange.endExclusive = s.drop e := by
      rw [substringFromJS_eq s _ (by omega) hc]
      have : (r.replaceRange.endExclusive).toNat = e := by omega
      rw [this]
    have e₄ : substringFromJS s (r.replaceRange.endExclusive - r.rcspSuffixLen s) =
        s.drop (e - qn) := by
      rw [substringFromJS_eq s _ (by omega) (by omega)]
      have : (r.replaceRange.endExclusive - r.rcspSuffixLen s).toNat = e - qn := by
        omega
      rw [this]
    have e₅ : substringJS r.newText (p : Int) ((N : Int) - r.rcspSuffixLen s) =
        (r.newText.take (N - qn)).drop p := by
      rw [substringJS_eq r.newText _ _ (by omega) (by omega)]
      have h₁ : ((N : Int) - r.rcspSuffixLen s).toNat = N - qn := by omega
      have h₂ : ((p : Nat) : Int).toNat = p := by omega
      rw [h₁, h₂]
    have hold : substringJS s r.replaceRange.start r.replaceRange.endExclusive =
        (s.take e).drop a := by
      rw [substringJS_eq s _ _ h0 hv]
      have h₁ : (r.replaceRange.endExclusive).toNat = e := by omega
      have h₂ : (r.replaceRange.start).toNat = a := by omega
      rw [h₁, h₂]
    -- (A) the extended prefix of the base is the old prefix plus the
    -- common prefix of old and new text.
    have eA : s.take (a + p) = s.take a ++ r.newText.take p := by
      rw [List.take_add]
      congr 1
      have h₁ := take_commonPrefixLength
        (substringJS s r.replaceRange.start r.replaceRange.endExclusive)
        r.newText p (le_of_eq hp.symm)
      rw [hold] at h₁
      rw [List.drop_take, List.take_take, min_eq_left hple] at h₁
      exact h₁.symm ▸ h₁
    -- (C) the extended suffix of the base is the common suffix plus the old
    -- suffix.
    have eC : s.drop (e - qn) =
        r.newText.drop (N - qn) ++ s.drop e := by
      have hsplit : s.drop (e - qn) =
          (s.take e).drop (e - qn) ++ s.drop e := by
        conv_lhs => rw [← List.take_append_drop e s]
        rw [List.drop_append_eq_append_drop]
        have h₁ : e - qn - (s.take e).length = 0 := by
          rw [List.length_take_of_le hes]
          omega
        rw [h₁, List.drop_zero]
      have hsuf := drop_commonSuffixLength
        (substringJS s r.replaceRange.start r.replaceRange.endExclusive)
        r.newText qn (by omega)
      rw [holdlen, hold] at hsuf
      rw [List.drop_drop] at hsuf
      have h₂ : a + (e - a - qn) = e - qn := by omega
      rw [h₂, ← hN] at hsuf
      rw [hsplit, hsuf]
    -- (B) the new text splits into common prefix, middle, common suffix.
    have eB : r.newText.take p ++ ((r.newText.take (N - qn)).drop p ++
        r.newText.drop (N - qn)) = r.newText := by
      have h₁ : (r.newText.take (N - qn)).take p = r.newText.take p := by
        rw [List.take_take, min_eq_left (by omega)]
      rw [← h₁, ← List.append_assoc, List.take_append_drop,
        List.take_append_drop]
    rw [e₁, e₂, e₃, e₄, e₅, eA, eC]
    conv_rhs => rw [← eB]
    simp [List.append_assoc]

/-- C4 witness: replacing `[1,4)` of `"abcde"` (old text `"bcd"`) by
`"bxd"`: the trimmed replacement applies to the same result. -/
theorem c4_removeCommonSuffixPrefix_replace_witness :
    ∃ r', StringReplacement.removeCommonSuffixPrefix
        ⟨⟨1, 4⟩, String.toList "bxd"⟩ (String.toList "abcde") = some r'
      ∧ r'.replace (String.toList "abcde") =
        StringReplacement.replace ⟨⟨1, 4⟩, String.toList "bxd"⟩
          (String.toList "abcde") :=
  c4_removeCommonSuffixPrefix_replace ⟨⟨1, 4⟩, String.toList "bxd"⟩
    (String.toList "abcde") (by decide) (by decide) (by decide)

/-- The derived line ranges of `getLineRangeMapping` are always valid: the
guards on `lineEndDelta` and `lineStartDelta` ensure the `LineRange`
constructor cannot throw. -/
theorem getLineRangeMapping_valid (rm : RangeMapping)
    (orig mod : LineLengths)
    (ho : rm.originalRange.startLineNumber ≤ rm.originalRange.endLineNumber)
    (hm : rm.modifiedRange.startLineNumber ≤ rm.modifiedRange.endLineNumber) :
    (getLineRangeMapping rm orig mod).original.Valid
    ∧ (getLineRangeMapping rm orig mod).modified.Valid := by
  simp only [getLineRangeMapping, LineRange.Valid, lineStartDelta, lineEndDelta]
  constructor <;> (split <;> split <;> simp_all <;> omega)

/-- C5: `getLineRangeMapping` excludes the last line (both end line numbers
reduced by one) exactly when both sides end at column 1 and neither resulting
line range would become invalid, and skips the first line (both start line
numbers advanced by one) exactly when on both sides the start column lies at
or beyond the end of the start line and neither resulting line range would
become invalid; the same `lineStartDelta` and `lineEndDelta` are applied to
the original and to the modified side, so the exclusion is never applied to
one side without the other. -/
theorem c5_getLineRangeMapping (rm : RangeMapping) (orig mod : LineLengths) :
    getLineRangeMapping rm orig mod =
      ⟨⟨rm.originalRange.startLineNumber + lineStartDelta rm orig mod,
          rm.originalRange.endLineNumber + 1 + lineEndDelta rm⟩,
        ⟨rm.modifiedRange.startLineNumber + lineStartDelta rm orig mod,
          rm.modifiedRange.endLineNumber + 1 + lineEndDelta rm⟩,
        some [rm]⟩
    ∧ (lineEndDelta rm = -1 ↔
        rm.originalRange.endColumn = 1 ∧ rm.modifiedRange.endColumn = 1
        ∧ rm.originalRange.startLineNumber ≤ rm.originalRange.endLineNumber + 1 + (-1)
        ∧ rm.modifiedRange.startLineNumber ≤ rm.modifiedRange.endLineNumber + 1 + (-1))
    ∧ (lineStartDelta rm orig mod = 1 ↔
        rm.originalRange.startColumn - 1 ≥ (orig rm.originalRange.startLineNumber : Int)
        ∧ rm.modifiedRange.startColumn - 1 ≥ (mod rm.modifiedRange.startLineNumber : Int)
        ∧ rm.originalRange.startLineNumber + 1 ≤
            rm.originalRange.endLineNumber + 1 + lineEndDelta rm
        ∧ rm.modifiedRange.startLineNumber + 1 ≤
            rm.modifiedRange.endLineNumber + 1 + lineEndDelta rm) := by
  refine ⟨rfl, ?_, ?_⟩
  · simp only [lineEndDelta]
    split <;> simp_all <;> omega
  · simp only [lineStartDelta]
    split <;> simp_all <;> omega

theorem head?_dropWhile_not {α : Type} (p : α → Bool) (l : List α) :
    ∀ x, (l.dropWhile p).head? = some x → p x = false := by
  induction l with
  | nil => intro x h; simp [List.dropWhile] at h
  | cons a l ih =>
    intro x h
    rw [List.dropWhile_cons] at h
    split at h
    · exact ih x h
    · simp only [List.head?_cons, Option.some.injEq] at h
      subst h
      simp_all

theorem set_append_cons {α : Type} (l1 l2 : List α) (a x : α) (i : Nat)
    (h : i = l1.length) : (l1 ++ a :: l2).set i x = l1 ++ x :: l2 := by
  subst h
  induction l1 with
  | nil => rfl
  | cons b bs ih => simp [List.set, ih]

theorem getD_append_cons {α : Type} (l1 l2 : List α) (a d : α) (i : Nat)
    (h : i = l1.length) : (l1 ++ a :: l2).getD i d = a := by
  subst h
  induction l1 with
  | nil => rfl
  | cons b bs ih => simpa using ih

theorem takeWhile_append_of_all {α : Type} (q : α → Bool) (l1 l2 : List α)
    (h : ∀ x ∈ l1, q x = true) :
    (l1 ++ l2).takeWhile q = l1 ++ l2.takeWhile q := by
  induction l1 with
  | nil => rfl
  | cons a l1 ih =>
    rw [List.cons_append, List.takeWhile_cons, h a (by simp), ih
      fun x hx => h x (List.mem_cons_of_mem a hx)]
    simp

theorem dropWhile_append_of_all {α : Type} (q : α → Bool) (l1 l2 : List α)
    (h : ∀ x ∈ l1, q x = true) :
    (l1 ++ l2).dropWhile q = l2.dropWhile q := by
  induction l1 with
  | nil => rfl
  | cons a l1 ih =>
    rw [List.cons_append, List.dropWhile_cons, h a (by simp), ih
      fun x hx => h x (List.mem_cons_of_mem a hx)]
    simp

theorem dropWhile_of_takeWhile_nil {α : Type} (q : α → Bool) (l : List α)
    (h : l.takeWhile q = []) : l.dropWhile q = l := by
  cases l with
  | nil => rfl
  | cons a l =>
    rw [List.takeWhile_cons] at h
    rw [List.dropWhile_cons]
    split at h
    · simp at h
    · simp_all

theorem findIdx_eq_length_takeWhile {α : Type} (p : α → Bool) (l : List α) :
    l.findIdx p = (l.takeWhile fun x => !(p x)).length := by
  induction l with
  | nil => rfl
  | cons a l ih =>
    rw [List.findIdx_cons, List.takeWhile_cons]
    cases hp : p a <;> simp [hp, ih]

theorem findLastIdxMonotonous_ge (q : α → Bool) (l : List α) :
    -1 ≤ findLastIdxMonotonous l q := by
  induction l with
  | nil => simp [findLastIdxMonotonous]
  | cons a l ih =>
    simp only [findLastIdxMonotonous]
    split
    · omega
    · split <;> omega

theorem findLastIdxMonotonous_all_false (q : α → Bool) (l : List α)
    (h : ∀ x ∈ l, q x = false) : findLastIdxMonotonous l q = -1 := by
  induction l with
  | nil => rfl
  | cons a l ih =>
    simp only [findLastIdxMonotonous,
      ih fun x hx => h x (List.mem_cons_of_mem a hx), h a (by simp)]
    norm_num

/-- For a predicate that never recovers after failing (as guaranteed by the
sortedness invariant), `findLastIdxMonotonous + 1` is the length of the
initial segment on which the predicate holds. -/
theorem findLastIdxMonotonous_add_one (q : α → Bool) (l : List α)
    (h : ∀ x ∈ l.dropWhile q, q x = false) :
    findLastIdxMonotonous l q + 1 = ((l.takeWhile q).length : Int) := by
  induction l with
  | nil => simp [findLastIdxMonotonous]
  | cons a l ih =>
    cases hq : q a with
    | true =>
      have h' : ∀ x ∈ l.dropWhile q, q x = false := by
        intro x hx
        refine h x ?_
        rw [List.dropWhile_cons, hq]
        simpa using hx
      have := ih h'
      have hge := findLastIdxMonotonous_ge q l
      have htw : (a :: l).takeWhile q = a :: l.takeWhile q := by
        rw [List.takeWhile_cons, hq]
        simp
      rw [htw, List.length_cons]
      simp only [findLastIdxMonotonous]
      split
      · push_cast
        omega
      · have hz : findLastIdxMonotonous l q = -1 := by omega
        rw [hz] at this
        push_cast
        omega
    | false =>
      have hd : (a :: l).dropWhile q = a :: l := by
        rw [List.dropWhile_cons, hq]
        simp
      have hall : ∀ x ∈ a :: l, q x = false := by
        intro x hx
        refine h x ?_
        rw [hd]
        exact hx
      have hz : findLastIdxMonotonous l q = -1 :=
        findLastIdxMonotonous_all_false q l
          fun x hx => hall x (List.mem_cons_of_mem a hx)
      have htw : (a :: l).takeWhile q = [] := by
        rw [List.takeWhile_cons, hq]
        simp
      rw [htw]
      simp only [findLastIdxMonotonous, hz, hq]
      norm_num

/-- In a normalized range list the head has the least start and the last
element the greatest end. -/
theorem OffsetRangeSet.chain_bounds_offset (t : OffsetRange) (ts : List OffsetRange)
    (hc : List.Chain' (fun a b => a.endExclusive < b.start) (t :: ts))
    (hv : ∀ r ∈ t :: ts, r.Valid) :
    ∀ r ∈ t :: ts, t.start ≤ r.start
      ∧ r.endExclusive ≤ (ts.getLastD t).endExclusive := by
  induction ts generalizing t with
  | nil =>
    intro r hr
    simp only [List.mem_singleton] at hr
    subst hr
    exact ⟨le_rfl, le_rfl⟩
  | cons u us ih =>
    rw [List.chain'_cons] at hc
    obtain ⟨htu, hc'⟩ := hc
    have hvt := hv t (by simp)
    have hvu := hv u (by simp)
    have ih' := ih u hc' (fun r hr => hv r (List.mem_cons_of_mem t hr))
    have hu_last := (ih' u (by simp)).2
    intro r hr
    rw [List.getLastD_cons]
    rcases List.mem_cons.mp hr with rfl | hr'
    · refine ⟨le_rfl, ?_⟩
      have := hvt
      unfold OffsetRange.Valid at this hvu
      omega
    · obtain ⟨h₁, h₂⟩ := ih' r hr'
      refine ⟨?_, h₂⟩
      unfold OffsetRange.Valid at hvt
      omega

/-- `OffsetRangeSet.addRange` preserves the `_sortedRanges` invariant. -/
theorem OffsetRangeSet.addRange_normalized (rs : List OffsetRange)
    (range : OffsetRange) (h : OffsetRangeSet.Normalized rs)
    (hr : range.Valid) :
    OffsetRangeSet.Normalized (OffsetRangeSet.addRange rs range) := by
  obtain ⟨hc, hv⟩ := h
  simp only [OffsetRangeSet.addRange]
  set before := rs.takeWhile fun r : OffsetRange =>
    decide (r.endExclusive < range.start) with hbefore
  set rest := rs.dropWhile fun r : OffsetRange =>
    decide (r.endExclusive < range.start) with hrest
  set touched := rest.takeWhile fun r : OffsetRange =>
    decide (r.start ≤ range.endExclusive) with htouched
  set after := rest.dropWhile fun r : OffsetRange =>
    decide (r.start ≤ range.endExclusive) with hafter
  have hsplit1 : before ++ rest = rs := List.takeWhile_append_dropWhile ..
  have hsplit2 : touched ++ after = rest := List.takeWhile_append_dropWhile ..
  have hrs : rs = before ++ touched ++ after := by
    rw [List.append_assoc, hsplit2, hsplit1]
  have hc' : List.Chain' (fun a b : OffsetRange => a.endExclusive < b.start)
      (before ++ touched ++ after) := hrs ▸ hc
  rw [List.append_assoc, List.chain'_append] at hc'
  obtain ⟨hcB, hcTA, hglue1⟩ := hc'
  rw [List.chain'_append] at hcTA
  obtain ⟨hcT, hcA, hglue2⟩ := hcTA
  have hvB : ∀ r ∈ before, r.Valid := fun r hrm =>
    hv r (hrs ▸ List.mem_append_left _ (List.mem_append_left _ hrm))
  have hvT : ∀ r ∈ touched, r.Valid := fun r hrm =>
    hv r (hrs ▸ List.mem_append_left _ (List.mem_append_right _ hrm))
  have hvA : ∀ r ∈ after, r.Valid := fun r hrm =>
    hv r (hrs ▸ List.mem_append_right _ hrm)
  have hB : ∀ r ∈ before, r.endExclusive < range.start := fun r hrm => by
    simpa using List.mem_takeWhile_imp hrm
  have hA : ∀ x, after.head? = some x → range.endExclusive < x.start := by
    intro x hx
    have := head?_dropWhile_not _ _ x hx
    simpa using this
  cases htc : touched with
  | nil =>
    rw [htc] at hsplit2
    simp only [List.nil_append] at hsplit2
    simp only [htc, List.isEmpty_nil, if_true]
    constructor
    · rw [List.chain'_append]
      refine ⟨hcB, ?_, ?_⟩
      · rw [List.chain'_cons']
        refine ⟨fun y hy => ?_, hcA⟩
        have := hA y hy
        omega
      · intro x hx y hy
        simp only [List.head?_cons, Option.mem_def, Option.some.injEq] at hy
        subst hy
        exact hB x (List.mem_of_mem_getLast? hx)
    · intro r hrm
      rcases List.mem_append.mp hrm with h₁ | h₂
      · exact hvB r h₁
      · rcases List.mem_cons.mp h₂ with rfl | h₃
        · exact hr
        · exact hvA r h₃
  | cons t ts =>
    rw [htc] at hglue1 hglue2 hcT hvT
    simp only [htc, List.isEmpty_cons, if_false, Bool.false_eq_true,
      List.headD_cons, List.getLastD_cons]
    have hlastT : (t :: ts).getLast? = some (ts.getLastD t) := by
      rw [List.getLast?_cons, List.getLastD_eq_getLast?]
    have hvt : t.Valid := hvT t (by simp)
    constructor
    · rw [List.chain'_append]
      refine ⟨hcB, ?_, ?_⟩
      · rw [List.chain'_cons']
        refine ⟨fun y hy => ?_, hcA⟩
        have h₁ := hA y hy
        have h₄ := hglue2 _ hlastT y hy
        simp only [max_lt_iff]
        omega
      · intro x hx y hy
        simp only [List.head?_cons, Option.mem_def, Option.some.injEq] at hy
        subst hy
        have h₁ := hB x (List.mem_of_mem_getLast? hx)
        have h₃ := hglue1 x hx t (by simp)
        simp only [lt_min_iff]
        omega
    · intro r hrm
      rcases List.mem_append.mp hrm with h₁ | h₂
      · exact hvB r h₁
      · rcases List.mem_cons.mp h₂ with rfl | h₃
        · unfold OffsetRange.Valid at hvt hr ⊢
          simp only [le_max_iff, min_le_iff]
          omega
        · exact hvA r h₃

/-- After `OffsetRangeSet.addRange`, every point of the added range and every
point of the previous contents is contained in the set. -/
theorem OffsetRangeSet.addRange_covers (rs : List OffsetRange)
    (range : OffsetRange) (h : OffsetRangeSet.Normalized rs) :
    (∀ k : Int, range.start ≤ k → k < range.endExclusive →
      OffsetRangeSet.containsPoint (OffsetRangeSet.addRange rs range) k)
    ∧ (∀ k : Int, OffsetRangeSet.containsPoint rs k →
      OffsetRangeSet.containsPoint (OffsetRangeSet.addRange rs range) k) := by
  obtain ⟨hc, hv⟩ := h
  simp only [OffsetRangeSet.addRange]
  set before := rs.takeWhile fun r : OffsetRange =>
    decide (r.endExclusive < range.start) with hbefore
  set rest := rs.dropWhile fun r : OffsetRange =>
    decide (r.endExclusive < range.start) with hrest
  set touched := rest.takeWhile fun r : OffsetRange =>
    decide (r.start ≤ range.endExclusive) with htouched
  set after := rest.dropWhile fun r : OffsetRange =>
    decide (r.start ≤ range.endExclusive) with hafter
  have hsplit1 : before ++ rest = rs := List.takeWhile_append_dropWhile ..
  have hsplit2 : touched ++ after = rest := List.takeWhile_append_dropWhile ..
  have hrs : rs = before ++ touched ++ after := by
    rw [List.append_assoc, hsplit2, hsplit1]
  have hc' : List.Chain' (fun a b : OffsetRange => a.endExclusive < b.start)
      (before ++ touched ++ after) := hrs ▸ hc
  rw [List.append_assoc, List.chain'_append] at hc'
  obtain ⟨hcB, hcTA, hglue1⟩ := hc'
  rw [List.chain'_append] at hcTA
  obtain ⟨hcT, hcA, hglue2⟩ := hcTA
  have hvT : ∀ r ∈ touched, r.Valid := fun r hrm =>
    hv r (hrs ▸ List.mem_append_left _ (List.mem_append_right _ hrm))
  cases htc : touched with
  | nil =>
    simp only [htc, List.isEmpty_nil, if_true]
    constructor
    · intro k hk1 hk2
      exact ⟨range, List.mem_append_right _ (List.mem_cons_self ..), hk1, hk2⟩
    · rintro k ⟨r, hrm, hk1, hk2⟩
      rw [hrs, htc] at hrm
      simp only [List.append_nil, List.nil_append] at hrm
      rcases List.mem_append.mp hrm with h₁ | h₂
      · exact ⟨r, List.mem_append_left _ h₁, hk1, hk2⟩
      · exact ⟨r, List.mem_append_right _ (List.mem_cons_of_mem _ h₂), hk1, hk2⟩
  | cons t ts =>
    rw [htc] at hcT hvT
    simp only [htc, List.isEmpty_cons, if_false, Bool.false_eq_true,
      List.headD_cons, List.getLastD_cons]
    have hbounds := OffsetRangeSet.chain_bounds_offset t ts hcT hvT
    constructor
    · intro k hk1 hk2
      refine ⟨_, List.mem_append_right _ (List.mem_cons_self ..), ?_, ?_⟩
      · simp only [min_le_iff]
        omega
      · simp only [lt_max_iff]
        omega
    · rintro k ⟨r, hrm, hk1, hk2⟩
      rw [hrs, htc] at hrm
      rcases List.mem_append.mp hrm with h₁ | h₂
      · rcases List.mem_append.mp h₁ with h₃ | h₄
        · exact ⟨r, List.mem_append_left _ h₃, hk1, hk2⟩
        · obtain ⟨hb1, hb2⟩ := hbounds r h₄
          refine ⟨_, List.mem_append_right _ (List.mem_cons_self ..), ?_, ?_⟩
          · simp only [min_le_iff]
            omega
          · simp only [lt_max_iff]
            omega
      · exact ⟨r, List.mem_append_right _ (List.mem_cons_of_mem _ h₂), hk1, hk2⟩

/-- In a normalized line-range list the head has the least start and the
last element the greatest end. -/
theorem LineRangeSet.chain_bounds_line (t : LineRange) (ts : List LineRange)
    (hc : List.Chain'
      (fun a b => a.endLineNumberExclusive < b.startLineNumber) (t :: ts))
    (hv : ∀ r ∈ t :: ts, r.Valid) :
    ∀ r ∈ t :: ts, t.startLineNumber ≤ r.startLineNumber
      ∧ r.endLineNumberExclusive ≤ (ts.getLastD t).endLineNumberExclusive := by
  induction ts generalizing t with
  | nil =>
    intro r hr
    simp only [List.mem_singleton] at hr
    subst hr
    exact ⟨le_rfl, le_rfl⟩
  | cons u us ih =>
    rw [List.chain'_cons] at hc
    obtain ⟨htu, hc'⟩ := hc
    have hvt := hv t (by simp)
    have hvu := hv u (by simp)
    have ih' := ih u hc' (fun r hr => hv r (List.mem_cons_of_mem t hr))
    intro r hr
    rw [List.getLastD_cons]
    rcases List.mem_cons.mp hr with rfl | hr'
    · refine ⟨le_rfl, ?_⟩
      have h₂ := (ih' u (by simp)).2
      unfold LineRange.Valid at hvt hvu
      omega
    · obtain ⟨h₁, h₂⟩ := ih' r hr'
      refine ⟨?_, h₂⟩
      unfold LineRange.Valid at hvt
      omega

/-- On normalized input, `LineRangeSet.addRange` computes the splice normal
form `addRangeNF` (the two monotone binary searches locate exactly the
touched span). -/
theorem LineRangeSet.addRange_eq_nf (rs : List LineRange) (range : LineRange)
    (h : LineRangeSet.Normalized rs) (hrv : range.Valid)
    (hne : ¬range.length = 0) :
    LineRangeSet.addRange rs range = LineRangeSet.addRangeNF rs range := by
  obtain ⟨hc, hv⟩ := h
  have hab : range.startLineNumber < range.endLineNumberExclusive := by
    unfold LineRange.Valid at hrv
    unfold LineRange.length at hne
    omega
  simp only [LineRangeSet.addRange, LineRangeSet.addRangeNF]
  rw [if_neg hne]
  set before := rs.takeWhile fun r : LineRange =>
    decide (r.endLineNumberExclusive < range.startLineNumber) with hbefore
  set rest := rs.dropWhile fun r : LineRange =>
    decide (r.endLineNumberExclusive < range.startLineNumber) with hrest
  set touched := rest.takeWhile fun r : LineRange =>
    decide (r.startLineNumber ≤ range.endLineNumberExclusive) with htouched
  set after := rest.dropWhile fun r : LineRange =>
    decide (r.startLineNumber ≤ range.endLineNumberExclusive) with hafter
  have hsplit1 : before ++ rest = rs := List.takeWhile_append_dropWhile ..
  have hsplit2 : touched ++ after = rest := List.takeWhile_append_dropWhile ..
  have hrs : rs = before ++ touched ++ after := by
    rw [List.append_assoc, hsplit2, hsplit1]
  have hc' : List.Chain'
      (fun a b : LineRange => a.endLineNumberExclusive < b.startLineNumber)
      (before ++ touched ++ after) := hrs ▸ hc
  rw [List.append_assoc, List.chain'_append] at hc'
  obtain ⟨hcB, hcTA, hglue1⟩ := hc'
  rw [List.chain'_append] at hcTA
  obtain ⟨hcT, hcA, hglue2⟩ := hcTA
  have hvB : ∀ r ∈ before, r.Valid := fun r hrm =>
    hv r (hrs ▸ List.mem_append_left _ (List.mem_append_left _ hrm))
  have hvT : ∀ r ∈ touched, r.Valid := fun r hrm =>
    hv r (hrs ▸ List.mem_append_left _ (List.mem_append_right _ hrm))
  have hvA : ∀ r ∈ after, r.Valid := fun r hrm =>
    hv r (hrs ▸ List.mem_append_right _ hrm)
  have hB : ∀ r ∈ before, r.endLineNumberExclusive < range.startLineNumber :=
    fun r hrm => by simpa using List.mem_takeWhile_imp hrm
  -- the first binary search finds the start of the touched span
  have hfun : (fun x : LineRange =>
      !decide (x.endLineNumberExclusive ≥ range.startLineNumber)) =
      (fun r : LineRange =>
        decide (r.endLineNumberExclusive < range.startLineNumber)) := by
    funext x
    rw [← decide_not]
    exact decide_eq_decide.mpr (by constructor <;> intro h <;> omega)
  have hs : findFirstIdxMonotonousOrArrLen rs
      (fun r => decide (r.endLineNumberExclusive ≥ range.startLineNumber)) =
      before.length := by
    rw [findFirstIdxMonotonousOrArrLen, findIdx_eq_length_takeWhile, hfun,
      hbefore]
  -- elements of `before` satisfy the second search's predicate
  have hBq : ∀ x ∈ before,
      decide (x.startLineNumber ≤ range.endLineNumberExclusive) = true := by
    intro x hx
    have h₁ := hB x hx
    have h₂ := hvB x hx
    unfold LineRange.Valid at h₂
    simp only [decide_eq_true_eq]
    omega
  -- the predicate of the second search never recovers after failing
  have hmono : ∀ x ∈ rs.dropWhile
      (fun r : LineRange =>
        decide (r.startLineNumber ≤ range.endLineNumberExclusive)),
      decide (x.startLineNumber ≤ range.endLineNumberExclusive) = false := by
    have hdropq : rs.dropWhile
        (fun r : LineRange =>
          decide (r.startLineNumber ≤ range.endLineNumberExclusive)) = after := by
      rw [← hsplit1, dropWhile_append_of_all _ before rest hBq, hafter]
    rw [hdropq]
    cases hac : after with
    | nil => simp
    | cons t' ts' =>
      intro x hx
      have hhead : decide
          (t'.startLineNumber ≤ range.endLineNumberExclusive) = false := by
        refine head?_dropWhile_not
          (fun r : LineRange =>
            decide (r.startLineNumber ≤ range.endLineNumberExclusive))
          rest t' ?_
        rw [← hafter, hac]
        rfl
      rw [hac] at hcA hvA
      have hbd := (LineRangeSet.chain_bounds_line t' ts' hcA hvA x hx).1
      simp only [decide_eq_false_iff_not] at hhead ⊢
      omega
  -- the second binary search finds the end of the touched span
  have he : findLastIdxMonotonous rs
      (fun r : LineRange =>
        decide (r.startLineNumber ≤ range.endLineNumberExclusive)) + 1 =
      ((before.length + touched.length : Nat) : Int) := by
    rw [findLastIdxMonotonous_add_one _ rs hmono, ← hsplit1,
      takeWhile_append_of_all _ before rest hBq, ← htouched,
      List.length_append]
  rw [hs, he]
  cases htc : touched with
  | nil =>
    have har : after = rest := by
      rw [hafter, dropWhile_of_takeWhile_nil _ rest (htouched ▸ htc)]
    simp only [List.length_nil, Nat.add_zero, List.isEmpty_nil,
      eq_self_iff_true, if_true]
    have h₁ : rs.take before.length = before := by
      conv_lhs => rw [← hsplit1]
      exact List.take_left ..
    have h₂ : rs.drop before.length = rest := by
      conv_lhs => rw [← hsplit1]
      exact List.drop_left ..
    rw [h₁, h₂, har]
  | cons t ts =>
    rw [htc] at hrs hcT hvT
    have hbounds := LineRangeSet.chain_bounds_line t ts hcT hvT
    rw [if_neg (by simp only [List.length_cons]; push_cast; omega)]
    simp only [List.isEmpty_cons, Bool.false_eq_true, if_false,
      List.headD_cons, List.getLastD_cons]
    by_cases hts0 : ts = []
    · subst hts0
      rw [List.append_assoc, List.singleton_append] at hrs
      rw [if_pos (by simp only [List.length_cons, List.length_nil]; push_cast; omega)]
      simp only [List.getLastD_nil]
      conv_lhs => rw [hrs]
      rw [getD_append_cons before after t ⟨1, 1⟩ before.length rfl,
        set_append_cons before after t (t.join range) before.length rfl]
      have hjoin : t.join range =
          (⟨min range.startLineNumber t.startLineNumber,
            max range.endLineNumberExclusive t.endLineNumberExclusive⟩ :
              LineRange) := by
        simp only [LineRange.join]
        rw [min_comm, max_comm]
      rw [hjoin]
    · have htslen : 0 < ts.length := List.length_pos.mpr hts0
      rw [if_neg (by simp only [List.length_cons]; push_cast; omega)]
      -- the last element of the touched span
      have htne : (t :: ts) ≠ ([] : List LineRange) := by simp
      have hlast : (t :: ts).getLast htne = ts.getLastD t := by
        rw [List.getLast_eq_getLastD]
      have hdec : t :: ts = (t :: ts).dropLast ++ [ts.getLastD t] := by
        conv_lhs => rw [← List.dropLast_append_getLast htne]
        rw [hlast]
      have hlastmem : ts.getLastD t ∈ t :: ts := by
        rw [hdec]
        exact List.mem_append_right _ (by simp)
      have hb1 := (hbounds (ts.getLastD t) hlastmem).1
      have hb2 := (hbounds t (by simp)).2
      -- index arithmetic and list surgery
      have h₁ : rs.take before.length = before := by
        conv_lhs => rw [← hsplit1]
        exact List.take_left ..
      have h₂ : rs.drop ((before.length + (t :: ts).length : Nat) : Int).toNat =
          after := by
        rw [Int.toNat_natCast, hrs]
        have hlen₂ : (before ++ t :: ts).length =
            before.length + (t :: ts).length := by simp
        rw [← hlen₂]
        exact List.drop_left ..
      have h₃ : rs.getD before.length ⟨1, 1⟩ = t := by
        rw [hrs, List.append_assoc, List.cons_append]
        exact getD_append_cons before (ts ++ after) t ⟨1, 1⟩ before.length rfl
      have h₄ : rs.getD
          (((before.length + (t :: ts).length : Nat) : Int).toNat - 1)
          ⟨1, 1⟩ = ts.getLastD t := by
        obtain ⟨n, hn⟩ : ∃ n : Nat,
            n = ((before.length + (t :: ts).length : Nat) : Int).toNat - 1 :=
          ⟨_, rfl⟩
        rw [← hn, hrs]
        conv_lhs =>
          rw [hdec, ← List.append_assoc, List.append_assoc
            (before ++ (t :: ts).dropLast), List.singleton_append]
        refine getD_append_cons _ after (ts.getLastD t) ⟨1, 1⟩ n ?_
        rw [hn]
        simp only [Int.toNat_natCast, List.length_append, List.length_dropLast,
          List.length_cons]
        omega
      rw [h₁, h₂, h₃, h₄]
      have hjoin : (t.join (ts.getLastD t)).join range =
          (⟨min range.startLineNumber t.startLineNumber,
            max range.endLineNumberExclusive
              (ts.getLastD t).endLineNumberExclusive⟩ : LineRange) := by
        simp only [LineRange.join]
        rw [min_eq_left hb1, max_eq_right hb2, min_comm, max_comm]
      rw [hjoin]

/-- The splice normal form preserves the `_normalizedRanges` invariant. -/
theorem LineRangeSet.addRangeNF_normalized (rs : List LineRange)
    (range : LineRange) (h : LineRangeSet.Normalized rs)
    (hr : range.Valid) :
    LineRangeSet.Normalized (LineRangeSet.addRangeNF rs range) := by
  obtain ⟨hc, hv⟩ := h
  simp only [LineRangeSet.addRangeNF]
  set before := rs.takeWhile fun r : LineRange =>
    decide (r.endLineNumberExclusive < range.startLineNumber) with hbefore
  set rest := rs.dropWhile fun r : LineRange =>
    decide (r.endLineNumberExclusive < range.startLineNumber) with hrest
  set touched := rest.takeWhile fun r : LineRange =>
    decide (r.startLineNumber ≤ range.endLineNumberExclusive) with htouched
  set after := rest.dropWhile fun r : LineRange =>
    decide (r.startLineNumber ≤ range.endLineNumberExclusive) with hafter
  have hsplit1 : before ++ rest = rs := List.takeWhile_append_dropWhile ..
  have hsplit2 : touched ++ after = rest := List.takeWhile_append_dropWhile ..
  have hrs : rs = before ++ touched ++ after := by
    rw [List.append_assoc, hsplit2, hsplit1]
  have hc' : List.Chain'
      (fun a b : LineRange => a.endLineNumberExclusive < b.startLineNumber)
      (before ++ touched ++ after) := hrs ▸ hc
  rw [List.append_assoc, List.chain'_append] at hc'
  obtain ⟨hcB, hcTA, hglue1⟩ := hc'
  rw [List.chain'_append] at hcTA
  obtain ⟨hcT, hcA, hglue2⟩ := hcTA
  have hvB : ∀ r ∈ before, r.Valid := fun r hrm =>
    hv r (hrs ▸ List.mem_append_left _ (List.mem_append_left _ hrm))
  have hvT : ∀ r ∈ touched, r.Valid := fun r hrm =>
    hv r (hrs ▸ List.mem_append_left _ (List.mem_append_right _ hrm))
  have hvA : ∀ r ∈ after, r.Valid := fun r hrm =>
    hv r (hrs ▸ List.mem_append_right _ hrm)
  have hB : ∀ r ∈ before, r.endLineNumberExclusive < range.startLineNumber :=
    fun r hrm => by simpa using List.mem_takeWhile_imp hrm
  have hA : ∀ x, after.head? = some x →
      range.endLineNumberExclusive < x.startLineNumber := by
    intro x hx
    have := head?_dropWhile_not _ _ x hx
    simpa using this
  cases htc : touched with
  | nil =>
    rw [htc] at hsplit2
    simp only [List.nil_append] at hsplit2
    simp only [htc, List.isEmpty_nil, if_true]
    constructor
    · rw [List.chain'_append]
      refine ⟨hcB, ?_, ?_⟩
      · rw [List.chain'_cons']
        refine ⟨fun y hy => ?_, hcA⟩
        have := hA y hy
        omega
      · intro x hx y hy
        simp only [List.head?_cons, Option.mem_def, Option.some.injEq] at hy
        subst hy
        exact hB x (List.mem_of_mem_getLast? hx)
    · intro r hrm
      rcases List.mem_append.mp hrm with h₁ | h₂
      · exact hvB r h₁
      · rcases List.mem_cons.mp h₂ with rfl | h₃
        · exact hr
        · exact hvA r h₃
  | cons t ts =>
    rw [htc] at hglue1 hglue2 hcT hvT
    simp only [htc, List.isEmpty_cons, if_false, Bool.false_eq_true,
      List.headD_cons, List.getLastD_cons]
    have hlastT : (t :: ts).getLast? = some (ts.getLastD t) := by
      rw [List.getLast?_cons, List.getLastD_eq_getLast?]
    have hvt : t.Valid := hvT t (by simp)
    constructor
    · rw [List.chain'_append]
      refine ⟨hcB, ?_, ?_⟩
      · rw [List.chain'_cons']
        refine ⟨fun y hy => ?_, hcA⟩
        have h₁ := hA y hy
        have h₄ := hglue2 _ hlastT y hy
        simp only [max_lt_iff]
        omega
      · intro x hx y hy
        simp only [List.head?_cons, Option.mem_def, Option.some.injEq] at hy
        subst hy
        have h₁ := hB x (List.mem_of_mem_getLast? hx)
        have h₃ := hglue1 x hx t (by simp)
        simp only [lt_min_iff]
        omega
    · intro r hrm
      rcases List.mem_append.mp hrm with h₁ | h₂
      · exact hvB r h₁
      · rcases List.mem_cons.mp h₂ with rfl | h₃
        · unfold LineRange.Valid at hvt hr ⊢
          simp only [le_max_iff, min_le_iff]
          omega
        · exact hvA r h₃

/-- After the splice normal form, every line of the added range and every
line of the previous contents is contained in the set. -/
theorem LineRangeSet.addRangeNF_covers (rs : List LineRange)
    (range : LineRange) (h : LineRangeSet.Normalized rs) :
    (∀ k : Int, range.startLineNumber ≤ k → k < range.endLineNumberExclusive →
      LineRangeSet.containsLine (LineRangeSet.addRangeNF rs range) k)
    ∧ (∀ k : Int, LineRangeSet.containsLine rs k →
      LineRangeSet.containsLine (LineRangeSet.addRangeNF rs range) k) := by
  obtain ⟨hc, hv⟩ := h
  simp only [LineRangeSet.addRangeNF]
  set before := rs.takeWhile fun r : LineRange =>
    decide (r.endLineNumberExclusive < range.startLineNumber) with hbefore
  set rest := rs.dropWhile fun r : LineRange =>
    decide (r.endLineNumberExclusive < range.startLineNumber) with hrest
  set touched := rest.takeWhile fun r : LineRange =>
    decide (r.startLineNumber ≤ range.endLineNumberExclusive) with htouched
  set after := rest.dropWhile fun r : LineRange =>
    decide (r.startLineNumber ≤ range.endLineNumberExclusive) with hafter
  have hsplit1 : before ++ rest = rs := List.takeWhile_append_dropWhile ..
  have hsplit2 : touched ++ after = rest := List.takeWhile_append_dropWhile ..
  have hrs : rs = before ++ touched ++ after := by
    rw [List.append_assoc, hsplit2, hsplit1]
  have hc' : List.Chain'
      (fun a b : LineRange => a.endLineNumberExclusive < b.startLineNumber)
      (before ++ touched ++ after) := hrs ▸ hc
  rw [List.append_assoc, List.chain'_append] at hc'
  obtain ⟨hcB, hcTA, hglue1⟩ := hc'
  rw [List.chain'_append] at hcTA
  obtain ⟨hcT, hcA, hglue2⟩ := hcTA
  have hvT : ∀ r ∈ touched, r.Valid := fun r hrm =>
    hv r (hrs ▸ List.mem_append_left _ (List.mem_append_right _ hrm))
  cases htc : touched with
  | nil =>
    simp only [htc, List.isEmpty_nil, if_true]
    constructor
    · intro k hk1 hk2
      exact ⟨range, List.mem_append_right _ (List.mem_cons_self ..), hk1, hk2⟩
    · rintro k ⟨r, hrm, hk1, hk2⟩
      rw [hrs, htc] at hrm
      simp only [List.append_nil, List.nil_append] at hrm
      rcases List.mem_append.mp hrm with h₁ | h₂
      · exact ⟨r, List.mem_append_left _ h₁, hk1, hk2⟩
      · exact ⟨r, List.mem_append_right _ (List.mem_cons_of_mem _ h₂), hk1, hk2⟩
  | cons t ts =>
    rw [htc] at hcT hvT
    simp only [htc, List.isEmpty_cons, if_false, Bool.false_eq_true,
      List.headD_cons, List.getLastD_cons]
    have hbounds := LineRangeSet.chain_bounds_line t ts hcT hvT
    constructor
    · intro k hk1 hk2
      refine ⟨_, List.mem_append_right _ (List.mem_cons_self ..), ?_, ?_⟩
      · simp only [min_le_iff]
        omega
      · simp only [lt_max_iff]
        omega
    · rintro k ⟨r, hrm, hk1, hk2⟩
      rw [hrs, htc] at hrm
      rcases List.mem_append.mp hrm with h₁ | h₂
      · rcases List.mem_append.mp h₁ with h₃ | h₄
        · exact ⟨r, List.mem_append_left _ h₃, hk1, hk2⟩
        · obtain ⟨hb1, hb2⟩ := hbounds r h₄
          refine ⟨_, List.mem_append_right _ (List.mem_cons_self ..), ?_, ?_⟩
          · simp only [min_le_iff]
            omega
          · simp only [lt_max_iff]
            omega
      · exact ⟨r, List.mem_append_right _ (List.mem_cons_of_mem _ h₂), hk1, hk2⟩

/-- C6: `OffsetRangeSet.addRange` and `LineRangeSet.addRange` preserve the
set invariant — stored ranges sorted and pairwise neither overlapping nor
touching (maximally merged) — and after `addRange(r)` every point contained
in `r` or in the previous set contents is contained in the resulting set. -/
theorem c6_addRange (rs : List OffsetRange) (range : OffsetRange)
    (ls : List LineRange) (lrange : LineRange)
    (h : OffsetRangeSet.Normalized rs) (hr : range.Valid)
    (hl : LineRangeSet.Normalized ls) (hlr : lrange.Valid) :
    (OffsetRangeSet.Normalized (OffsetRangeSet.addRange rs range)
      ∧ (∀ k : Int, range.start ≤ k → k < range.endExclusive →
          OffsetRangeSet.containsPoint (OffsetRangeSet.addRange rs range) k)
      ∧ (∀ k : Int, OffsetRangeSet.containsPoint rs k →
          OffsetRangeSet.containsPoint (OffsetRangeSet.addRange rs range) k))
    ∧ (LineRangeSet.Normalized (LineRangeSet.addRange ls lrange)
      ∧ (∀ k : Int, lrange.startLineNumber ≤ k →
          k < lrange.endLineNumberExclusive →
          LineRangeSet.containsLine (LineRangeSet.addRange ls lrange) k)
      ∧ (∀ k : Int, LineRangeSet.containsLine ls k →
          LineRangeSet.containsLine (LineRangeSet.addRange ls lrange) k)) := by
  refine ⟨⟨OffsetRangeSet.addRange_normalized rs range h hr,
    (OffsetRangeSet.addRange_covers rs range h).1,
    (OffsetRangeSet.addRange_covers rs range h).2⟩, ?_⟩
  by_cases h0 : lrange.length = 0
  · have heq : LineRangeSet.addRange ls lrange = ls := by
      simp only [LineRangeSet.addRange, if_pos h0]
    rw [heq]
    refine ⟨hl, ?_, fun k hk => hk⟩
    intro k hk1 hk2
    exfalso
    unfold LineRange.length at h0
    omega
  · rw [LineRangeSet.addRange_eq_nf ls lrange hl hlr h0]
    exact ⟨LineRangeSet.addRangeNF_normalized ls lrange hl hlr,
      (LineRangeSet.addRangeNF_covers ls lrange hl).1,
      (LineRangeSet.addRangeNF_covers ls lrange hl).2⟩

/-- C6 witness: adding `[2,4)` to the offset-range set `{[0,2)}` and line
range `[3,5)` to the line-range set `{[1,3)}`. -/
theorem c6_addRange_witness :
    (OffsetRangeSet.Normalized (OffsetRangeSet.addRange [⟨0, 2⟩] ⟨2, 4⟩)
      ∧ (∀ k : Int, (2 : Int) ≤ k → k < 4 →
          OffsetRangeSet.containsPoint (OffsetRangeSet.addRange [⟨0, 2⟩] ⟨2, 4⟩) k)
      ∧ (∀ k : Int, OffsetRangeSet.containsPoint [⟨0, 2⟩] k →
          OffsetRangeSet.containsPoint (OffsetRangeSet.addRange [⟨0, 2⟩] ⟨2, 4⟩) k))
    ∧ (LineRangeSet.Normalized (LineRangeSet.addRange [⟨1, 3⟩] ⟨3, 5⟩)
      ∧ (∀ k : Int, (3 : Int) ≤ k → k < 5 →
          LineRangeSet.containsLine (LineRangeSet.addRange [⟨1, 3⟩] ⟨3, 5⟩) k)
      ∧ (∀ k : Int, LineRangeSet.containsLine [⟨1, 3⟩] k →
          LineRangeSet.containsLine (LineRangeSet.addRange [⟨1, 3⟩] ⟨3, 5⟩) k)) :=
  c6_addRange [⟨0, 2⟩] ⟨2, 4⟩ [⟨1, 3⟩] ⟨3, 5⟩
    (by constructor
        · simp
        · intro r hr
          simp only [List.mem_singleton] at hr
          subst hr
          decide)
    (by decide)
    (by constructor
        · simp
        · intro r hr
          simp only [List.mem_singleton] at hr
          subst hr
          decide)
    (by decide)

theorem ga_shape {α : Type} (p : α → α → Bool) :
    ∀ (x : α) (xs : List α), ∃ g gs,
      groupAdjacentBy p (x :: xs) = (x :: g) :: gs := by
  intro x xs
  cases xs with
  | nil => exact ⟨[], [], rfl⟩
  | cons y ys =>
    obtain ⟨g, gs, hg⟩ := ga_shape p y ys
    simp only [groupAdjacentBy, hg]
    by_cases hp : p x y = true
    · rw [if_pos hp]
      exact ⟨y :: g, gs, rfl⟩
    · rw [if_neg hp]
      exact ⟨[], (y :: g) :: gs, rfl⟩

theorem ga_flatten {α : Type} (p : α → α → Bool) :
    ∀ l : List α, (groupAdjacentBy p l).flatten = l := by
  intro l
  match l with
  | [] => rfl
  | [x] => rfl
  | x :: y :: xs =>
    have ih := ga_flatten p (y :: xs)
    obtain ⟨g, gs, hg⟩ := ga_shape p y xs
    rw [hg] at ih
    simp only [groupAdjacentBy, hg]
    split
    · simpa using ih
    · simpa using ih

theorem ga_ne_nil {α : Type} (p : α → α → Bool) :
    ∀ l : List α, ∀ g ∈ groupAdjacentBy p l, g ≠ [] := by
  intro l
  match l with
  | [] => simp [groupAdjacentBy]
  | [x] => simp [groupAdjacentBy]
  | x :: y :: xs =>
    have ih := ga_ne_nil p (y :: xs)
    obtain ⟨g, gs, hg⟩ := ga_shape p y xs
    rw [hg] at ih
    simp only [groupAdjacentBy, hg]
    split
    · intro g' hg'
      rcases List.mem_cons.mp hg' with rfl | h
      · simp
      · exact ih g' (List.mem_cons_of_mem _ h)
    · intro g' hg'
      rcases List.mem_cons.mp hg' with rfl | h
      · simp
      · exact ih g' h

theorem ga_chain {α : Type} (p : α → α → Bool) :
    ∀ l : List α, ∀ g ∈ groupAdjacentBy p l,
      List.Chain' (fun a b => p a b = true) g := by
  intro l
  match l with
  | [] => simp [groupAdjacentBy]
  | [x] => simp [groupAdjacentBy]
  | x :: y :: xs =>
    have ih := ga_chain p (y :: xs)
    obtain ⟨g, gs, hg⟩ := ga_shape p y xs
    rw [hg] at ih
    simp only [groupAdjacentBy, hg]
    split
    · intro g' hg'
      rcases List.mem_cons.mp hg' with rfl | h
      · rw [List.chain'_cons']
        refine ⟨fun z hz => ?_, ih (y :: g) (by simp)⟩
        simp only [List.head?_cons, Option.mem_def, Option.some.injEq] at hz
        subst hz
        assumption
      · exact ih g' (List.mem_cons_of_mem _ h)
    · intro g' hg'
      rcases List.mem_cons.mp hg' with rfl | h
      · simp
      · exact ih g' h

theorem ga_boundary {α : Type} (p : α → α → Bool) :
    ∀ l : List α, List.Chain'
      (fun g₁ g₂ => ∀ a b, g₁.getLast? = some a → g₂.head? = some b →
        p a b = false) (groupAdjacentBy p l) := by
  intro l
  match l with
  | [] => simp [groupAdjacentBy]
  | [x] => simp [groupAdjacentBy]
  | x :: y :: xs =>
    have ih := ga_boundary p (y :: xs)
    obtain ⟨g, gs, hg⟩ := ga_shape p y xs
    rw [hg] at ih
    simp only [groupAdjacentBy, hg]
    rw [List.chain'_cons'] at ih
    obtain ⟨ihead, itail⟩ := ih
    split
    · rw [List.chain'_cons']
      refine ⟨fun g₂ hg₂ a b ha hb => ?_, itail⟩
      refine ihead g₂ hg₂ a b ?_ hb
      rwa [List.getLast?_cons_cons] at ha
    · rw [List.chain'_cons']
      refine ⟨fun g₂ hg₂ a b ha hb => ?_, ?_⟩
      · simp only [Option.mem_def, List.head?_cons, Option.some.injEq] at hg₂
        subst hg₂
        simp only [List.getLast?_singleton, Option.some.injEq] at ha
        simp only [List.head?_cons, Option.some.injEq] at hb
        subst ha
        subst hb
        exact Bool.not_eq_true _ ▸ ‹¬_›
      · rw [List.chain'_cons']
        exact ⟨ihead, itail⟩

theorem changeOfGroup_inner (g : List DetailedLineRangeMapping)
    (h : ∀ a ∈ g, ∃ rm, a.innerChanges = some [rm]) :
    (changeOfGroup g).innerChanges =
      some ((g.map fun a => a.innerChanges.getD []).flatten) := by
  simp only [changeOfGroup]
  congr 1
  induction g with
  | nil => rfl
  | cons a g ih =>
    obtain ⟨rm, hrm⟩ := h a (by simp)
    simp only [List.map_cons, List.flatten_cons, hrm, Option.getD_some,
      List.headD_cons]
    rw [ih fun b hb => h b (List.mem_cons_of_mem a hb)]
    rfl

/-- C2 counterexample: a concrete list of range mappings that is sorted in
the sense of `RangeMapping.assertSorted`, for which the two output mappings
of `lineRangeMappingFromRangeMappings` are not separated by an unchanged
line on both sides (the original ranges `[2,2)` and `[2,4)` touch). -/
theorem c2_lineRangeMappingFromRangeMappings_cex :
    RangeMapping.assertSortedB cexAlignments = true
    ∧ cexOutput =
      [⟨⟨2, 2⟩, ⟨2, 2⟩, some [⟨⟨1, 1, 1, 3⟩, ⟨1, 3, 1, 3⟩⟩]⟩,
       ⟨⟨2, 4⟩, ⟨3, 4⟩, some [⟨⟨2, 1, 2, 1⟩, ⟨2, 3, 3, 3⟩⟩,
         ⟨⟨2, 3, 4, 1⟩, ⟨4, 1, 4, 1⟩⟩]⟩]
    ∧ ¬((cexOutput.getD 0 ⟨⟨1, 1⟩, ⟨1, 1⟩, none⟩).original.endLineNumberExclusive <
          (cexOutput.getD 1 ⟨⟨1, 1⟩, ⟨1, 1⟩, none⟩).original.startLineNumber
        ∧ (cexOutput.getD 0 ⟨⟨1, 1⟩, ⟨1, 1⟩, none⟩).modified.endLineNumberExclusive <
          (cexOutput.getD 1 ⟨⟨1, 1⟩, ⟨1, 1⟩, none⟩).modified.startLineNumber) :=
  ⟨by decide, by decide, by decide⟩

/-- C2 (amended): for every sorted list of range mappings,
`lineRangeMappingFromRangeMappings` joins exactly the maximal runs of
consecutive derived line mappings that intersect or touch on the original or
on the modified side into single `DetailedLineRangeMapping`s whose
`innerChanges` is the concatenation of the members' single inner changes;
the derived mappings at the boundary of adjacent runs neither intersect nor
touch on either side (but the joined output mappings need not be separated
by an unchanged line on both sides — the trailing `assertFn` only checks
that). -/
theorem c2_lineRangeMappingFromRangeMappings (alignments : List RangeMapping)
    (originalLines modifiedLines : LineLengths)
    (hsorted : RangeMapping.assertSortedB alignments = true) :
    ∃ gs : List (List DetailedLineRangeMapping),
      gs.flatten = (alignments.map fun a =>
        getLineRangeMapping a originalLines modifiedLines)
      ∧ (∀ g ∈ gs, g ≠ [])
      ∧ (∀ g ∈ gs, List.Chain' (fun a b => shouldGroup a b = true) g)
      ∧ List.Chain' (fun g₁ g₂ => ∀ a b, g₁.getLast? = some a →
          g₂.head? = some b → shouldGroup a b = false) gs
      ∧ lineRangeMappingFromRangeMappings alignments originalLines
          modifiedLines = gs.map changeOfGroup
      ∧ ∀ g ∈ gs, (changeOfGroup g).innerChanges =
          some ((g.map fun a => a.innerChanges.getD []).flatten) := by
  refine ⟨groupAdjacentBy shouldGroup (alignments.map fun a =>
      getLineRangeMapping a originalLines modifiedLines),
    ga_flatten shouldGroup _, ga_ne_nil shouldGroup _, ga_chain shouldGroup _,
    ga_boundary shouldGroup _, rfl, ?_⟩
  intro g hg
  refine changeOfGroup_inner g fun a ha => ?_
  have hmem : a ∈ (groupAdjacentBy shouldGroup (alignments.map fun a =>
      getLineRangeMapping a originalLines modifiedLines)).flatten :=
    List.mem_flatten.mpr ⟨g, hg, ha⟩
  rw [ga_flatten] at hmem
  obtain ⟨rm, _, rfl⟩ := List.mem_map.mp hmem
  exact ⟨rm, rfl⟩

/-- C2 witness: the amended statement at the single sorted mapping
`(1,1)-(1,2) → (1,1)-(1,3)` over one-line texts of length 5. -/
theorem c2_lineRangeMappingFromRangeMappings_witness :
    RangeMapping.assertSortedB [(⟨⟨1, 1, 1, 2⟩, ⟨1, 1, 1, 3⟩⟩ : RangeMapping)] = true
    ∧ ∃ gs : List (List DetailedLineRangeMapping),
      gs.flatten = ([(⟨⟨1, 1, 1, 2⟩, ⟨1, 1, 1, 3⟩⟩ : RangeMapping)].map fun a =>
        getLineRangeMapping a (fun _ => 5) (fun _ => 5))
      ∧ (∀ g ∈ gs, g ≠ [])
      ∧ (∀ g ∈ gs, List.Chain' (fun a b => shouldGroup a b = true) g)
      ∧ List.Chain' (fun g₁ g₂ => ∀ a b, g₁.getLast? = some a →
          g₂.head? = some b → shouldGroup a b = false) gs
      ∧ lineRangeMappingFromRangeMappings [⟨⟨1, 1, 1, 2⟩, ⟨1, 1, 1, 3⟩⟩]
          (fun _ => 5) (fun _ => 5) = gs.map changeOfGroup
      ∧ ∀ g ∈ gs, (changeOfGroup g).innerChanges =
          some ((g.map fun a => a.innerChanges.getD []).flatten) :=
  ⟨by decide, c2_lineRangeMappingFromRangeMappings
    [⟨⟨1, 1, 1, 2⟩, ⟨1, 1, 1, 3⟩⟩] (fun _ => 5) (fun _ => 5) (by decide)⟩

/-- C10 witness: a concrete singleton list. -/
theorem c10_join_assertSorted_witness :
    RangeMapping.joinList ([] : List VsDiff.RangeMapping) = none
    ∧ (∃ r, RangeMapping.joinList [(⟨⟨1, 1, 1, 1⟩, ⟨1, 1, 1, 1⟩⟩ : VsDiff.RangeMapping)] = some r)
    ∧ (∀ ms : List VsDiff.RangeMapping,
        RangeMapping.assertSortedB ms = false ↔
          ∃ i, ∃ h : i + 1 < ms.length,
            RangeMapping.outOfOrder (ms.get ⟨i, Nat.lt_of_succ_lt h⟩)
              (ms.get ⟨i + 1, h⟩) = true) :=
  c10_join_assertSorted [⟨⟨1, 1, 1, 1⟩, ⟨1, 1, 1, 1⟩⟩] (by simp)

end VsDiff
